import Mathlib

/-
Verification of the Directory Relocation Engine of qfile
(src/qfile/__init__.py): the functions merge, clone, move, folder and the
per-thread failure accumulator (_thread_failed, _set_failed, failed).

The filesystem is modelled as an ordered tree: a node is either a file with
a string content or a directory with an ordered list of named children
(the order models the order in which os.scandir / os.walk return entries).
Absolute paths are lists of name components, always compared after
normalisation, exactly as the code compares os.path.abspath results.

Python exceptions are modelled by an error enumeration; fallible operations
return Except.  A raised exception carries the filesystem state at the point
of the raise, because a caught OSError leaves all mutations made so far in
place.  os.walk is modelled lazily, as a pending list of directories that is
re-scanned against the current filesystem state at every step; a directory
that has disappeared (or turned into a file) when its turn comes is skipped
silently, which is exactly what os.walk with onerror=None does.  The
recursion between merge and the walk (the staged clone branch calls merge
again) is made total with a fuel parameter; Err.outOfFuel never occurs for
sufficient fuel.

uuid() is modelled by an explicit staging-name parameter: the caller of the
model supplies the collision-free name that uuid4 would have produced.

The per-thread failure dictionary _thread_failed is modelled twice, at two
granularities: the relocation functions thread the calling thread's slot
(an Option FailList, none meaning the key is absent) through their state,
and a separate association-list store models the full dictionary keyed by
thread identifier for the concurrency claims.
-/

namespace QFile

/-- A filesystem node: a file with contents, or a directory with an ordered
list of named children. -/
inductive Node : Type where
  | file (content : String)
  | dir (children : List (String × Node))

/-- An absolute path, as the list of its name components. -/
abbrev Path := List String

/-- Python exception classes raised by the modelled code. -/
inductive Err : Type where
  | notADirectory
  | fileNotFound
  | fileExists
  | permissionDenied
  | isADirectory
  | keyError
  | outOfFuel
  deriving DecidableEq, Repr

/-- One entry of the failed list: (path, wasDirectory, cause), mirroring the
tuples appended to lfailed in the source. -/
structure FailRec : Type where
  path : Path
  isDir : Bool
  cause : Err
  deriving DecidableEq, Repr

/-- A failed list as published by _set_failed. -/
abbrev FailList := List FailRec

/-- Find the first child with the given name (the entry os.scandir-order
resolution uses). -/
def findChild : List (String × Node) → String → Option Node
  | [], _ => none
  | (k', v) :: cr, k => if k' = k then some v else findChild cr k

/-- Replace the value of the first child with the given name; no change if
the name is absent. -/
def replaceChild : List (String × Node) → String → Node → List (String × Node)
  | [], _, _ => []
  | (k', w) :: cr, k, nv => if k' = k then (k', nv) :: cr else (k', w) :: replaceChild cr k nv

/-- Remove the first child with the given name; no change if absent. -/
def dropChild : List (String × Node) → String → List (String × Node)
  | [], _ => []
  | (k', w) :: cr, k => if k' = k then cr else (k', w) :: dropChild cr k

/-- Resolve a path inside a node.  lookup n [] = some n; descending into a
file fails; descending into a directory follows the first child with the
given name. -/
def lookup : Node → Path → Option Node
  | n, [] => some n
  | .file _, _ :: _ => none
  | .dir cs, k :: rest =>
    match findChild cs k with
    | some v => lookup v rest
    | none => none

/-- The child-list update performed by a leaf-level write: replace the first
child of that name in place, or append a new child at the end. -/
def setCh (cs : List (String × Node)) (k : String) (v : Node) : List (String × Node) :=
  match findChild cs k with
  | some _ => replaceChild cs k v
  | none => cs ++ [(k, v)]

/-- Write a node at a path.  Intermediate components must exist as
directories, otherwise the write is a silent no-op (all callers in the model
guard the parents first, as the code does).  A missing leaf is appended at
the end of its parent's child list; an existing leaf is replaced in place. -/
def setNode : Node → Path → Node → Node
  | _, [], v => v
  | .file c, _ :: _, _ => .file c
  | .dir cs, k :: rest, v =>
    match findChild cs k with
    | some w => .dir (replaceChild cs k (setNode w rest v))
    | none =>
      match rest with
      | [] => .dir (cs ++ [(k, v)])
      | _ :: _ => .dir cs

/-- Remove the entry at a path, if it exists; otherwise a no-op. -/
def removeNode : Node → Path → Node
  | n, [] => n
  | .file c, _ :: _ => .file c
  | .dir cs, k :: rest =>
    match rest with
    | [] => .dir (dropChild cs k)
    | _ :: _ =>
      match findChild cs k with
      | some w => .dir (replaceChild cs k (removeNode w rest))
      | none => .dir cs

/-- os.path.isdir. -/
def isdir (fs : Node) (p : Path) : Bool :=
  match lookup fs p with
  | some (.dir _) => true
  | _ => false

/-- os.path.isfile. -/
def isfile (fs : Node) (p : Path) : Bool :=
  match lookup fs p with
  | some (.file _) => true
  | _ => false

/-- os.path.exists. -/
def existsF (fs : Node) (p : Path) : Bool :=
  (lookup fs p).isSome

/-- The observable kind of an optional node: none if nothing, some (some c)
for a file with content c, some none for a directory. -/
def toKind : Option Node → Option (Option String)
  | none => none
  | some (.file c) => some (some c)
  | some (.dir _) => some none

/-- The kind and content visible at a path.  Two trees that agree on kindAt
at every path hold the same files with the same contents at the same
locations. -/
def kindAt (fs : Node) (p : Path) : Option (Option String) :=
  toKind (lookup fs p)

/-- Boolean path-prefix test (the containment test behind rel). -/
def isPre : Path → Path → Bool
  | [], _ => true
  | _ :: _, [] => false
  | a :: as, b :: bs => a = b && isPre as bs

/-- rel(child, parent) from the source: the relative path of child inside
parent as given by Path.relative_to, or none when child is not under
parent.  Paths are already absolute here. -/
def rel (child parent : Path) : Option Path :=
  if isPre parent child then some (child.drop parent.length) else none

/-- Path(p).parent for an absolute path. -/
def parentP (p : Path) : Path := p.dropLast

/-- Path(p).name, the last component. -/
def lastName (p : Path) : String := p.getLastD ""

/-- The file children of a directory's child list, in scan order, as
(name, node) entries.  os.walk yields their names as the nondirs list. -/
def filesEntries (cs : List (String × Node)) : List (String × Node) :=
  cs.filterMap fun kv =>
    match kv.2 with
    | .file c => some (kv.1, Node.file c)
    | .dir _ => none

/-- The names of the file children of a directory, in scan order. -/
def fileNames (cs : List (String × Node)) : List String :=
  (filesEntries cs).map Prod.fst

/-- The names of the directory children of a directory, in scan order.
os.walk yields these as the dirs list and recurses into them. -/
def dirNames (cs : List (String × Node)) : List String :=
  cs.filterMap fun kv =>
    match kv.2 with
    | .file _ => none
    | .dir _ => some kv.1

/-- os.mkdir: creates exactly the leaf directory.  Raises FileExistsError if
the path exists, NotADirectoryError if the parent is a file, and
FileNotFoundError if the parent is missing. -/
def mkdir (fs : Node) (p : Path) : Except Err Node :=
  match lookup fs p with
  | some _ => .error .fileExists
  | none =>
    match lookup fs (parentP p) with
    | some (.dir _) => .ok (setNode fs p (.dir []))
    | some (.file _) => .error .notADirectory
    | none => .error .fileNotFound

/-- shutil.rmtree: recursively delete a directory.  Raises NotADirectoryError
on a file and FileNotFoundError on a missing path. -/
def rmtreeE (fs : Node) (p : Path) : Except Err Node :=
  match lookup fs p with
  | some (.dir _) => .ok (removeNode fs p)
  | some (.file _) => .error .notADirectory
  | none => .error .fileNotFound

/-- os.rename on one filesystem: moves the node at s onto d.  Replacing an
existing file by a file is allowed; renaming a directory onto an existing
file, or anything onto an existing directory, fails (the code never reaches
those cases). -/
def doRename (fs : Node) (s d : Path) : Except Err Node :=
  match lookup fs s with
  | none => .error .fileNotFound
  | some n =>
    if isdir fs (parentP d) then
      match lookup fs d with
      | none => .ok (setNode (removeNode fs s) d n)
      | some (.file _) =>
        match n with
        | .file _ => .ok (setNode (removeNode fs s) d n)
        | .dir _ => .error .notADirectory
      | some (.dir _) => .error .fileExists
    else .error .fileNotFound

/-- shutil.move: if the destination is a directory, move into it under the
source's basename (refusing to overwrite); otherwise rename onto the
destination. -/
def shutilMove (fs : Node) (s d : Path) : Except Err Node :=
  if isdir fs d then
    let realDst := d ++ [lastName s]
    if (lookup fs realDst).isSome then .error .fileExists
    else doRename fs s realDst
  else doRename fs s d

/-- shutil.copy of a single file: if the destination is a directory, copy
into it under the source's basename; an existing destination file is
overwritten.  Copying a directory this way raises IsADirectoryError. -/
def shutilCopy (fs : Node) (s d : Path) : Except Err Node :=
  let realDst := if isdir fs d then d ++ [lastName s] else d
  match lookup fs s with
  | some (.file c) =>
    if isdir fs (parentP realDst) then .ok (setNode fs realDst (.file c))
    else .error .fileNotFound
  | some (.dir _) => .error .isADirectory
  | none => .error .fileNotFound

/-- The helper _move from the source: refuse to move onto an existing
directory, then shutil.move. -/
def movePrim (fs : Node) (s d : Path) : Except Err Node :=
  if isdir fs d then .error .fileExists
  else shutilMove fs s d

/-- The body of the inner per-file loop of merge: ensure the destination is
not a directory (force mode deletes it, otherwise a FileExistsError is
recorded), then copy or move the file over, recording any failure as a
(path, False, cause) record instead of raising. -/
def processFile (mv rforce : Bool) (folder dstFolder : Path)
    (st : Node × FailList) (f : String) : Node × FailList :=
  let fs := st.1
  let lf := st.2
  let srcFile := folder ++ [f]
  let dstFile := dstFolder ++ [f]
  let run : Node → Node × FailList := fun fs1 =>
    match (if mv then shutilMove fs1 srcFile dstFile else shutilCopy fs1 srcFile dstFile) with
    | .ok fs2 => (fs2, lf)
    | .error e => (fs1, lf ++ [⟨srcFile, false, e⟩])
  if isdir fs dstFile then
    if rforce then run (removeNode fs dstFile)
    else (fs, lf ++ [⟨srcFile, false, Err.fileExists⟩])
  else run fs

/-- One iteration of the walk loop of merge on a yielded (folder, files)
pair: compute the destination folder, ensure it exists (force mode deletes a
blocking file first; a failure of os.mkdir is recorded as a (folder, True,
cause) record and skips the files of this folder), then process every file.
This is the try-block of the loop body lines 345-375 of the source. -/
def iterBody (mv rforce : Bool) (srcPath dst : Path) (fs : Node)
    (folder : Path) (files : List String) (lf : FailList) : Node × FailList :=
  let relFolder := folder.drop srcPath.length
  let dstFolder := dst ++ relFolder
  if isdir fs dstFolder then
    files.foldl (processFile mv rforce folder dstFolder) (fs, lf)
  else
    let fs0 := if rforce && isfile fs dstFolder then removeNode fs dstFolder else fs
    match mkdir fs0 dstFolder with
    | .error e => (fs0, lf ++ [⟨folder, true, e⟩])
    | .ok fs1 => files.foldl (processFile mv rforce folder dstFolder) (fs1, lf)

/-- The result type of merge: the Python return value on normal completion
(none models the bare return of the same-path branch, some b models the
final return of not bool(lfailed)) together with the final filesystem and
slot; a raise carries the exception class and the state at the raise. -/
abbrev MRes := Except (Err × Node × Option FailList) (Option Bool × Node × Option FailList)

/-- The result type of the walk loop: final filesystem, slot and lfailed. -/
abbrev WRes := Except (Err × Node × Option FailList) (Node × Option FailList × FailList)

/-- The walk loop of merge, lines 344-385 of the source, over the lazy
os.walk generator: pending is the list of directories still to visit, in
depth-first order; each is re-scanned against the current filesystem when
its turn comes, and skipped silently if it no longer is a directory.  After
the try-block of every yielded folder the source runs, still inside the
loop: if moving, shutil.rmtree of the whole (possibly staged) source tree;
else, if the source had been staged out of the destination, the
reconciliation that merges or moves the staged tree back onto the original
source path.  Those two actions sit inside the loop in the source (the
deletion is not deferred to the end of the walk), and this model keeps them
there.  recM is the recursive merge call used by the reconciliation (with
move=True), supplied by the fuel-indexed tie below; the walk spends one
unit of fuel per visited pending entry. -/
def walkW (recM : Node → Option FailList → Path → Path → Option Bool → MRes)
    (mv staged rforce : Bool) (force : Option Bool) (src dst srcPath : Path) :
    Nat → List Path → Node → Option FailList → FailList → WRes
  | _, [], fs, slot, lf => .ok (fs, slot, lf)
  | 0, _ :: _, fs, slot, _ => .error (.outOfFuel, fs, slot)
  | fuel' + 1, p :: rest, fs, slot, lf =>
    match lookup fs p with
    | some (.dir cs) =>
      let files := fileNames cs
      let dirs := dirNames cs
      let next := dirs.map (fun k => p ++ [k]) ++ rest
      let fl1 := iterBody mv rforce srcPath dst fs p files lf
      if mv then
        match rmtreeE fl1.1 srcPath with
        | .error e => .error (e, fl1.1, slot)
        | .ok fs2 =>
          walkW recM mv staged rforce force src dst srcPath fuel' next fs2 slot fl1.2
      else if staged then
        if existsF fl1.1 src then
          match recM fl1.1 slot srcPath src force with
          | .error r => .error r
          | .ok (_, fs2, slot2) =>
            walkW recM mv staged rforce force src dst srcPath fuel' next fs2 slot2 fl1.2
        else
          match movePrim fl1.1 srcPath src with
          | .error e => .error (e, fl1.1, slot)
          | .ok fs2 =>
            walkW recM mv staged rforce force src dst srcPath fuel' next fs2 slot fl1.2
      else
        walkW recM mv staged rforce force src dst srcPath fuel' next fl1.1 slot fl1.2
    | _ =>
      walkW recM mv staged rforce force src dst srcPath fuel' rest fs slot lf

/-- merge(src, dst, move, force) from the source, lines 288-388, given the
walk fuel and the recursive merge callback.  The state threaded through is
the filesystem together with the calling thread's slot of _thread_failed
(none when the key is absent).  stage is the unique name uuid() produces
for the staging location; dflt is the value of the module-global
default_force. -/
def mergeW (recM : Node → Option FailList → Path → Path → Option Bool → MRes)
    (wfuel : Nat) (dflt : Bool) (stage : String) (fs : Node)
    (slot : Option FailList) (src dst : Path) (mv : Bool) (force : Option Bool) : MRes :=
  if ¬ isdir fs src then .error (.notADirectory, fs, slot)
  else if ¬ isdir fs dst then .error (.notADirectory, fs, slot)
  else if src = dst then .ok (none, fs, slot)
  else
    let rforce := force.getD dflt
    match rel src dst with
    | some _ =>
      let srcPath := parentP dst ++ [stage]
      match shutilMove fs src srcPath with
      | .error e => .error (e, fs, slot)
      | .ok fs1 =>
        match walkW recM mv true rforce force src dst srcPath wfuel [srcPath] fs1 slot [] with
        | .error r => .error r
        | .ok (fs2, _, lf) => .ok (some lf.isEmpty, fs2, some lf)
    | none =>
      if (rel dst src).isSome then .error (.permissionDenied, fs, slot)
      else
        match walkW recM mv false rforce force src dst src wfuel [src] fs slot [] with
        | .error r => .error r
        | .ok (fs2, _, lf) => .ok (some lf.isEmpty, fs2, some lf)

/-- The fuel-indexed tie of merge and its walk: mergeF (fuel+1) runs the
merge body with walk fuel fuel, and the reconciliation inside the walk
recurses at mergeF fuel (always with move=True, as in the source).  Written
with Nat.rec so that the kernel can evaluate concrete calls. -/
def mergeF (fuel : Nat) (dflt : Bool) (stage : String) (fs : Node)
    (slot : Option FailList) (src dst : Path) (mv : Bool) (force : Option Bool) : MRes :=
  Nat.rec
    (motive := fun _ => Bool → String → Node → Option FailList → Path → Path → Bool →
      Option Bool → MRes)
    (fun _ _ fs0 slot0 _ _ _ _ => .error (.outOfFuel, fs0, slot0))
    (fun fuel' ih dflt' stage' fs0 slot0 src0 dst0 mv0 force0 =>
      mergeW (fun fs1 slot1 s d f1 => ih dflt' stage' fs1 slot1 s d true f1)
        fuel' dflt' stage' fs0 slot0 src0 dst0 mv0 force0)
    fuel dflt stage fs slot src dst mv force

/-- os.makedirs(p, exist_ok=True), walking the components from the root:
an existing directory component is fine, an existing file component raises
(FileExistsError at the leaf, NotADirectoryError for an intermediate one),
a missing component is created.  Created ancestors persist even when a later
component fails, so an error carries the partially mutated tree. -/
def makedirsA (fs : Node) (built : Path) : List String → Except (Err × Node) Node
  | [] => .ok fs
  | c :: rest =>
    let q := built ++ [c]
    match lookup fs q with
    | some (.dir _) => makedirsA fs q rest
    | some (.file _) =>
      .error ((if rest.isEmpty then Err.fileExists else Err.notADirectory), fs)
    | none =>
      match mkdir fs q with
      | .ok fs' => makedirsA fs' q rest
      | .error e => .error (e, fs)

/-- os.makedirs(p, exist_ok=True) from the root. -/
def makedirs (fs : Node) (p : Path) : Except (Err × Node) Node :=
  makedirsA fs [] p

/-- The while-loop of folder in force mode, structurally fuelled by the
path length (each climb towards the root shortens the path by one). -/
def findExistingA (fs : Node) : Nat → Path → Path
  | 0, _ => []
  | n + 1, p => if (lookup fs p).isSome then p else findExistingA fs n (parentP p)

/-- The while-loop of folder in force mode: climb from the leaf to the
deepest existing path component. -/
def findExisting (fs : Node) (p : Path) : Path :=
  findExistingA fs p.length p

/-- folder(src, force) from the source, lines 710-742 (the cwd parameter,
which only changes the process working directory, is not modelled): return
(fs, False) if the directory already exists; otherwise os.makedirs, and in
force mode a failed makedirs is retried once after deleting the deepest
existing path component, which must be a blocking file (os.remove of a
directory raises IsADirectoryError). -/
def folderF (fs : Node) (p : Path) (force : Option Bool) (dflt : Bool) :
    Except (Err × Node) (Node × Bool) :=
  if isdir fs p then .ok (fs, false)
  else
    let rforce := force.getD dflt
    if rforce then
      match makedirs fs p with
      | .ok fs' => .ok (fs', true)
      | .error (_, fsE) =>
        let bad := findExisting fsE p
        match lookup fsE bad with
        | some (.file _) =>
          let fs1 := removeNode fsE bad
          match makedirs fs1 p with
          | .ok fs2 => .ok (fs2, true)
          | .error r => .error r
        | _ => .error (.isADirectory, fsE)
    else
      match makedirs fs p with
      | .ok fs' => .ok (fs', true)
      | .error r => .error r

/-- clone(src, dst, into, force) from the source, lines 390-426.  Returns
the path of the clone together with the final state.  The directory branch
ensures the destination directory with folder and delegates to merge; the
file branch deletes a blocking destination directory (force) or raises,
creates the parent chain, publishes a fresh empty failed list, and copies. -/
def cloneF (fuel : Nat) (dflt : Bool) (stage : String) (fs : Node)
    (slot : Option FailList) (src dst : Path) (into : Bool) (force : Option Bool) :
    Except (Err × Node × Option FailList) (Path × Node × Option FailList) :=
  if ¬ existsF fs src then .error (.fileNotFound, fs, slot)
  else
    let tdst := if into then dst ++ [lastName src] else dst
    if isdir fs src then
      match folderF fs tdst force dflt with
      | .error (e, fs1) => .error (e, fs1, slot)
      | .ok (fs1, _) =>
        match mergeF fuel dflt stage fs1 slot src tdst false force with
        | .error r => .error r
        | .ok (_, fs2, slot2) => .ok (tdst, fs2, slot2)
    else
      let rforce := force.getD dflt
      match (if isdir fs tdst then
               (if rforce then Except.ok (removeNode fs tdst)
                else Except.error Err.fileExists)
             else Except.ok fs) with
      | .error e => .error (e, fs, slot)
      | .ok fs1 =>
        match folderF fs1 (parentP tdst) force dflt with
        | .error (e, fs2) => .error (e, fs2, slot)
        | .ok (fs2, _) =>
          let slot2 : Option FailList := some []
          match shutilCopy fs2 src tdst with
          | .error e => .error (e, fs2, slot2)
          | .ok fs3 => .ok (tdst, fs3, slot2)

/-- move(src, dst, into, force) from the source, lines 433-481.  Publishes a
fresh empty failed list right after the existence check, resolves the
literal destination, then branches on the type of source and destination:
existing-directory destinations of a directory source go through merge in
move mode, everything else reduces to _move after force-mode conflict
resolution. -/
def moveF (fuel : Nat) (dflt : Bool) (stage : String) (fs : Node)
    (slot : Option FailList) (src dst : Path) (into : Bool) (force : Option Bool) :
    Except (Err × Node × Option FailList) (Path × Node × Option FailList) :=
  if ¬ existsF fs src then .error (.fileNotFound, fs, slot)
  else
    let slot1 : Option FailList := some []
    let tdst := if into then dst ++ [lastName src] else dst
    if existsF fs tdst then
      if isdir fs src then
        if isfile fs tdst then
          let rforce := force.getD dflt
          if rforce then
            let fs1 := removeNode fs tdst
            match movePrim fs1 src tdst with
            | .error e => .error (e, fs1, slot1)
            | .ok fs2 => .ok (tdst, fs2, slot1)
          else .error (.fileExists, fs, slot1)
        else
          match mergeF fuel dflt stage fs slot1 src tdst true force with
          | .error r => .error r
          | .ok (_, fs2, slot2) => .ok (tdst, fs2, slot2)
      else
        if isdir fs tdst then
          let rforce := force.getD dflt
          if rforce then
            let fs1 := removeNode fs tdst
            match movePrim fs1 src tdst with
            | .error e => .error (e, fs1, slot1)
            | .ok fs2 => .ok (tdst, fs2, slot1)
          else .error (.fileExists, fs, slot1)
        else
          let fs1 := removeNode fs tdst
          match movePrim fs1 src tdst with
          | .error e => .error (e, fs1, slot1)
          | .ok fs2 => .ok (tdst, fs2, slot1)
    else
      match folderF fs (parentP tdst) force dflt with
      | .error (e, fs1) => .error (e, fs1, slot1)
      | .ok (fs1, _) =>
        match movePrim fs1 src tdst with
        | .error e => .error (e, fs1, slot1)
        | .ok fs2 => .ok (tdst, fs2, slot1)

/-- The module-level dictionary _thread_failed, keyed by thread identifier,
modelled as an association list. -/
abbrev Store := List (Nat × FailList)

/-- Dictionary lookup in _thread_failed. -/
def storeGet (s : Store) (tid : Nat) : Option FailList :=
  match s with
  | [] => none
  | (t, l) :: rest => if t = tid then some l else storeGet rest tid

/-- _set_failed(failed_list) executed by the thread with identifier tid:
_thread_failed[tid] = failed_list, replacing the whole entry. -/
def storeSet (s : Store) (tid : Nat) (l : FailList) : Store :=
  match s with
  | [] => [(tid, l)]
  | (t, l') :: rest => if t = tid then (t, l) :: rest else (t, l') :: storeSet rest tid l

/-- failed(id=None) executed by the thread with identifier caller: the
subscript _thread_failed[sid] where sid is the caller when no id is given.
A missing key raises KeyError, as a plain dict subscript does. -/
def failedF (s : Store) (caller : Nat) (id : Option Nat) : Except Err FailList :=
  match storeGet s (id.getD caller) with
  | some l => .ok l
  | none => .error .keyError

/-- No duplicate names in a child-name list. -/
def nodupKeys : List String → Bool
  | [] => true
  | k :: ks => !(ks.contains k) && nodupKeys ks

mutual

/-- Well-formedness of a tree as a filesystem: every directory has
pairwise-distinct child names.  Real directories always satisfy this. -/
def wfb : Node → Bool
  | .file _ => true
  | .dir cs => nodupKeys (cs.map Prod.fst) && wfbL cs

/-- Helper for wfb over child lists. -/
def wfbL : List (String × Node) → Bool
  | [] => true
  | (_, v) :: cr => wfb v && wfbL cr

end

mutual

/-- The number of directory nodes in a tree (the number of folders os.walk
visits when nothing mutates underneath it); used as a fuel bound. -/
def dirCount : Node → Nat
  | .file _ => 0
  | .dir cs => 1 + dirCountL cs

/-- Helper for dirCount over child lists. -/
def dirCountL : List (String × Node) → Nat
  | [] => 0
  | (_, v) :: cr => dirCount v + dirCountL cr

end

/-- The fuel cost of a pending list of the walk over an immutable source
tree A: the total number of directories below the pending relative paths. -/
def costsA (A : Node) (qs : List Path) : Nat :=
  (qs.map (fun q =>
    match lookup A q with
    | some t => dirCount t
    | none => 0)).sum

/-
Concrete fixtures used by the per-claim evaluation, counterexample and
witness theorems below.
-/

/-- Fixture for C1: b contains a; a holds a root file x and a nested file
sub/y; b also holds an unrelated file other. -/
def fsC1 : Node :=
  .dir [("b", .dir [("a", .dir [("x", .file "X"), ("sub", .dir [("y", .file "Y")])]),
                    ("other", .file "O")])]

/-- The state fsC1 reaches after the staged move-merge of b/a into b. -/
def fsC1m : Node := .dir [("b", .dir [("other", .file "O"), ("x", .file "X")])]

/-- The state fsC1 reaches after the staged clone-merge of b/a into b. -/
def fsC1c : Node :=
  .dir [("b", .dir [("other", .file "O"), ("x", .file "X"),
                    ("a", .dir [("x", .file "X"), ("sub", .dir [("y", .file "Y")])])])]

/-- Fixture for C2: a holds a root file x and a nested file sub/y; d is an
existing empty directory, unrelated to a. -/
def fsC2 : Node :=
  .dir [("a", .dir [("x", .file "X"), ("sub", .dir [("y", .file "Y")])]), ("d", .dir [])]

/-- The state fsC2 reaches after merge(a, d, move=True). -/
def fsC2m : Node := .dir [("d", .dir [("x", .file "X")])]

/-- Fixture for C4: a directory d with content, to merge into itself. -/
def fsC4 : Node := .dir [("d", .dir [("z", .file "Z")])]

/-- A failed record left by an earlier operation, for C4. -/
def oldRec4 : FailRec := ⟨["old"], false, .permissionDenied⟩

/-- Fixture for C5: a directory e with content, to clone onto itself. -/
def fsC5 : Node := .dir [("e", .dir [("w", .file "W")])]

/-- A failed record left by an earlier operation, for C5. -/
def oldRec5 : FailRec := ⟨["prev"], true, .fileExists⟩

/-- Fixture for C7: directory a whose only entry is the file b, so that
a/b is a file strictly inside a. -/
def fsC7 : Node := .dir [("a", .dir [("b", .file "C")])]

/-- Fixture for C8: directory X with only a nested file sub/y, and an
existing empty directory Y. -/
def fsC8 : Node := .dir [("X", .dir [("sub", .dir [("y", .file "Y")])]), ("Y", .dir [])]

/-- Fixture for the C3 witness: q is a directory strictly inside p. -/
def fsW3 : Node := .dir [("p", .dir [("q", .dir [])])]

/-- Fixture for the C6 witness: only a file f, no directories. -/
def fsW6 : Node := .dir [("f", .file "x")]

/-- Fixture for the C7 witness: a small directory a with a root file and a
nested file, plus an unrelated file f. -/
def fsW7 : Node :=
  .dir [("a", .dir [("x", .file "X"), ("s", .dir [("y", .file "Y")])]), ("f", .file "F")]

/-- Fixture for the C5 witness: a file src and a fresh destination area. -/
def fsW5 : Node := .dir [("src", .file "S"), ("out", .dir [])]

/-- Fixture for the C9 and C10 witnesses: a store with one entry for
thread 1. -/
def storeW : Store := [(1, [⟨["w"], false, .fileExists⟩])]

/-
Helper lemmas about paths and tree operations.
-/

theorem isPre_iff (a : Path) : ∀ b : Path, isPre a b = true ↔ ∃ r, b = a ++ r := by
  induction a with
  | nil => intro b; simp [isPre]
  | cons k a' ih =>
    intro b
    cases b with
    | nil => simp [isPre]
    | cons k2 b' =>
      simp only [isPre, Bool.and_eq_true, decide_eq_true_eq, ih, List.cons_append,
        List.cons.injEq]
      constructor
      · rintro ⟨h1, r, h2⟩; exact ⟨r, h1.symm, h2⟩
      · rintro ⟨r, h1, h2⟩; exact ⟨h1.symm, r, h2⟩

theorem isPre_append (a b : Path) : isPre a (a ++ b) = true :=
  (isPre_iff a (a ++ b)).mpr ⟨b, rfl⟩

theorem isPre_refl (a : Path) : isPre a a = true := by
  have := isPre_append a []
  simpa using this

theorem isPre_length {a b : Path} (h : isPre a b = true) : a.length ≤ b.length := by
  obtain ⟨r, rfl⟩ := (isPre_iff a b).mp h
  simp

theorem isPre_append_right_false {a : Path} {r : List String} (hr : r ≠ []) :
    isPre (a ++ r) a = false := by
  by_contra h
  have h' : isPre (a ++ r) a = true := by
    cases hh : isPre (a ++ r) a
    · exact absurd hh h
    · rfl
  have := isPre_length h'
  simp at this
  exact hr this

theorem append_right_ne {a : Path} {r : List String} (hr : r ≠ []) : a ≠ a ++ r := by
  intro h
  have := congrArg List.length h
  simp at this
  exact hr this

theorem isPre_trans {a b c : Path} (h1 : isPre a b = true) (h2 : isPre b c = true) :
    isPre a c = true := by
  obtain ⟨r1, rfl⟩ := (isPre_iff a b).mp h1
  obtain ⟨r2, rfl⟩ := (isPre_iff (a ++ r1) c).mp h2
  exact (isPre_iff a _).mpr ⟨r1 ++ r2, by simp⟩

theorem isPre_of_append_le {a b : Path} {c : List String}
    (h : isPre a (b ++ c) = true) (hl : a.length ≤ b.length) : isPre a b = true := by
  obtain ⟨r, hr⟩ := (isPre_iff a (b ++ c)).mp h
  refine (isPre_iff a b).mpr ⟨b.drop a.length, ?_⟩
  have htake : (b ++ c).take a.length = a := by
    rw [hr]; simp
  have htake2 : (b ++ c).take a.length = b.take a.length := List.take_append_of_le_length hl
  rw [htake2] at htake
  conv_lhs => rw [← List.take_append_drop a.length b]
  rw [htake]

theorem isPre_of_both {a b c : Path} (h1 : isPre a c = true) (h2 : isPre b c = true)
    (hl : a.length ≤ b.length) : isPre a b = true := by
  obtain ⟨r2, rfl⟩ := (isPre_iff b c).mp h2
  exact isPre_of_append_le h1 hl

theorem isPre_snoc {a b : Path} {k : String} (h : isPre a (b ++ [k]) = true) :
    isPre a b = true ∨ a = b ++ [k] := by
  obtain ⟨r, hr⟩ := (isPre_iff a (b ++ [k])).mp h
  cases r using List.reverseRecOn with
  | nil => right; simpa using hr.symm
  | append_singleton r' x _ =>
    left
    rw [← List.append_assoc] at hr
    have := List.append_inj' hr rfl
    exact (isPre_iff a b).mpr ⟨r', this.1⟩

theorem isPre_cancel (a : Path) {b c : Path} : isPre (a ++ b) (a ++ c) = isPre b c := by
  induction a with
  | nil => rfl
  | cons k a' ih => simp [isPre, ih]

theorem isPre_false_of_incomp_right {a b : Path} {z : List String}
    (h1 : isPre a b = false) (h2 : isPre b a = false) : isPre a (b ++ z) = false := by
  by_contra hc
  have hc' : isPre a (b ++ z) = true := by
    cases hh : isPre a (b ++ z)
    · exact absurd hh hc
    · rfl
  by_cases hl : a.length ≤ b.length
  · rw [isPre_of_append_le hc' hl] at h1; exact Bool.noConfusion h1
  · have : isPre b a = true :=
      isPre_of_both (isPre_append b z) hc' (Nat.le_of_lt (Nat.lt_of_not_le hl))
    rw [this] at h2; exact Bool.noConfusion h2

theorem isPre_extend_left_false {a b : Path} {z : List String}
    (h : isPre a b = false) : isPre (a ++ z) b = false := by
  by_contra hc
  have hc' : isPre (a ++ z) b = true := by
    cases hh : isPre (a ++ z) b
    · exact absurd hh hc
    · rfl
  rw [isPre_trans (isPre_append a z) hc'] at h
  exact Bool.noConfusion h

theorem lookup_append (p : Path) :
    ∀ (fs : Node) (q : Path), lookup fs (p ++ q) = (lookup fs p).bind (fun n => lookup n q) := by
  induction p with
  | nil => intro fs q; simp [lookup]
  | cons k p' ih =>
    intro fs q
    cases fs with
    | file c => simp [lookup]
    | dir cs =>
      cases h : findChild cs k with
      | none => simp [lookup, h]
      | some v => simp [lookup, h, ih]

theorem lookup_dir_cons (cs : List (String × Node)) (k : String) (r : Path) :
    lookup (.dir cs) (k :: r) = (findChild cs k).bind (fun n => lookup n r) := by
  cases h : findChild cs k with
  | none => simp [lookup, h]
  | some v => simp [lookup, h]

theorem lookup_some_parent_dir {fs : Node} {p : Path} {t : Node}
    (hp : p ≠ []) (h : lookup fs p = some t) : isdir fs (parentP p) = true := by
  have hdecomp : p.dropLast ++ [p.getLast hp] = p := List.dropLast_append_getLast hp
  rw [← hdecomp, lookup_append] at h
  unfold isdir parentP
  cases hq : lookup fs p.dropLast with
  | none => rw [hq] at h; simp at h
  | some n =>
    rw [hq] at h
    cases n with
    | file c => simp [lookup] at h
    | dir cs => rfl

theorem lookup_none_append {fs : Node} {p : Path} (h : lookup fs p = none) (q : Path) :
    lookup fs (p ++ q) = none := by
  rw [lookup_append, h]; rfl

theorem lookup_file_append {fs : Node} {p : Path} {c : String}
    (h : lookup fs p = some (.file c)) {q : Path} (hq : q ≠ []) :
    lookup fs (p ++ q) = none := by
  rw [lookup_append, h]
  cases q with
  | nil => exact absurd rfl hq
  | cons a l => simp [lookup]

theorem isdir_iff {fs : Node} {p : Path} :
    isdir fs p = true ↔ ∃ es, lookup fs p = some (.dir es) := by
  unfold isdir
  cases h : lookup fs p with
  | none => simp
  | some n => cases n <;> simp

theorem findChild_replaceChild_same {cs : List (String × Node)} {k : String} {w : Node}
    (h : findChild cs k = some w) (nv : Node) :
    findChild (replaceChild cs k nv) k = some nv := by
  induction cs with
  | nil => simp [findChild] at h
  | cons kv cr ih =>
    obtain ⟨k', v⟩ := kv
    by_cases hk : k' = k
    · simp [findChild, replaceChild, hk]
    · simp only [findChild, if_neg hk] at h
      simp only [replaceChild, if_neg hk, findChild, if_neg hk]
      exact ih h

theorem findChild_replaceChild_other (cs : List (String × Node)) {k kx : String}
    (hne : k ≠ kx) (nv : Node) :
    findChild (replaceChild cs k nv) kx = findChild cs kx := by
  induction cs with
  | nil => rfl
  | cons kv cr ih =>
    obtain ⟨k', v⟩ := kv
    by_cases hk : k' = k
    · have hx : ¬ (k' = kx) := fun hh => hne (by rw [← hk, hh])
      simp [findChild, replaceChild, hk, hx, hne]
    · by_cases hx : k' = kx
      · have hne2 : ¬ (kx = k) := fun hh => hne hh.symm
        simp [findChild, replaceChild, hk, hx, hne2]
      · simp only [replaceChild, if_neg hk, findChild, if_neg hx]
        exact ih

theorem findChild_append_other (cs : List (String × Node)) {k kx : String}
    (hne : k ≠ kx) (v : Node) :
    findChild (cs ++ [(k, v)]) kx = findChild cs kx := by
  induction cs with
  | nil => simp [findChild, hne]
  | cons kv cr ih =>
    obtain ⟨k', w⟩ := kv
    by_cases hx : k' = kx
    · simp [findChild, hx]
    · simp only [List.cons_append, findChild, if_neg hx]
      exact ih

theorem findChild_append_self {cs : List (String × Node)} {k : String}
    (h : findChild cs k = none) (v : Node) :
    findChild (cs ++ [(k, v)]) k = some v := by
  induction cs with
  | nil => simp [findChild]
  | cons kv cr ih =>
    obtain ⟨k', w⟩ := kv
    by_cases hx : k' = k
    · simp [findChild, hx] at h
    · simp only [findChild, if_neg hx] at h
      simp only [List.cons_append, findChild, if_neg hx]
      exact ih h

theorem replaceChild_replaceChild (cs : List (String × Node)) (k : String) (a b : Node) :
    replaceChild (replaceChild cs k a) k b = replaceChild cs k b := by
  induction cs with
  | nil => rfl
  | cons kv cr ih =>
    obtain ⟨k', w⟩ := kv
    by_cases hk : k' = k
    · simp [replaceChild, hk]
    · simp only [replaceChild, if_neg hk]
      rw [ih]

theorem replaceChild_append_absent {cs : List (String × Node)} {k : String}
    (h : findChild cs k = none) (w nv : Node) :
    replaceChild (cs ++ [(k, w)]) k nv = cs ++ [(k, nv)] := by
  induction cs with
  | nil => simp [replaceChild]
  | cons kv cr ih =>
    obtain ⟨k', u⟩ := kv
    by_cases hx : k' = k
    · simp [findChild, hx] at h
    · simp only [findChild, if_neg hx] at h
      rw [show (((k', u) :: cr) ++ [(k, w)] : List (String × Node)) =
            (k', u) :: (cr ++ [(k, w)]) from rfl]
      rw [show replaceChild ((k', u) :: (cr ++ [(k, w)])) k nv =
            (k', u) :: replaceChild (cr ++ [(k, w)]) k nv by simp [replaceChild, hx]]
      rw [ih h]
      rfl

theorem setCh_absent {cs : List (String × Node)} {k : String}
    (h : findChild cs k = none) (v : Node) : setCh cs k v = cs ++ [(k, v)] := by
  simp [setCh, h]

theorem setNode_nil (fs v : Node) : setNode fs [] v = v := by
  cases fs <;> rfl

theorem setNode_lookup_frame {p : Path} (v : Node) :
    ∀ (x : Path) (fs : Node), isPre p x = false → isPre x p = false →
      lookup (setNode fs p v) x = lookup fs x := by
  induction p with
  | nil => intro x fs h1 _; simp [isPre] at h1
  | cons kp p' ih =>
    intro x fs h1 h2
    cases x with
    | nil => simp [isPre] at h2
    | cons kx x' =>
      cases fs with
      | file c => rfl
      | dir cs =>
        by_cases hk : kp = kx
        · subst hk
          simp [isPre] at h1 h2
          cases hf : findChild cs kp with
          | some w =>
            rw [show setNode (.dir cs) (kp :: p') v =
                  .dir (replaceChild cs kp (setNode w p' v)) by simp [setNode, hf]]
            rw [lookup_dir_cons, lookup_dir_cons, hf,
              findChild_replaceChild_same hf (setNode w p' v)]
            simp only [Option.some_bind]
            exact ih x' w h1 h2
          | none =>
            cases p' with
            | nil => simp [isPre] at h1
            | cons a l =>
              rw [show setNode (.dir cs) (kp :: a :: l) v = .dir cs by simp [setNode, hf]]
        · cases hf : findChild cs kp with
          | some w =>
            rw [show setNode (.dir cs) (kp :: p') v =
                  .dir (replaceChild cs kp (setNode w p' v)) by simp [setNode, hf]]
            rw [lookup_dir_cons, lookup_dir_cons,
              findChild_replaceChild_other cs hk (setNode w p' v)]
          | none =>
            cases p' with
            | nil =>
              rw [show setNode (.dir cs) [kp] v = .dir (cs ++ [(kp, v)]) by simp [setNode, hf]]
              rw [lookup_dir_cons, lookup_dir_cons, findChild_append_other cs hk v]
            | cons a l =>
              rw [show setNode (.dir cs) (kp :: a :: l) v = .dir cs by simp [setNode, hf]]

theorem kindAt_setNode_above (v : Node) :
    ∀ (x p : Path) (fs : Node), isPre x p = true → isPre p x = false →
      kindAt (setNode fs p v) x = kindAt fs x := by
  intro x
  induction x with
  | nil =>
    intro p fs h1 h2
    cases p with
    | nil => simp [isPre] at h2
    | cons kp p' =>
      cases fs with
      | file c => rfl
      | dir cs =>
        cases hf : findChild cs kp with
        | some w => simp [setNode, hf, kindAt, lookup, toKind]
        | none => cases p' <;> simp [setNode, hf, kindAt, lookup, toKind]
  | cons kx x' ih =>
    intro p fs h1 h2
    cases p with
    | nil => simp [isPre] at h1
    | cons kp p' =>
      simp only [isPre, Bool.and_eq_true, decide_eq_true_eq] at h1
      obtain ⟨hk, h1'⟩ := h1
      subst hk
      simp [isPre] at h2
      cases fs with
      | file c => rfl
      | dir cs =>
        cases hf : findChild cs kx with
        | some w =>
          rw [show setNode (.dir cs) (kx :: p') v =
                .dir (replaceChild cs kx (setNode w p' v)) by simp [setNode, hf]]
          unfold kindAt
          rw [lookup_dir_cons, lookup_dir_cons, hf,
            findChild_replaceChild_same hf (setNode w p' v)]
          simp only [Option.some_bind]
          exact ih p' w h1' h2
        | none =>
          cases p' with
          | nil => simp [isPre] at h2
          | cons a l =>
            rw [show setNode (.dir cs) (kx :: a :: l) v = .dir cs by simp [setNode, hf]]

theorem setNode_lookup_self (v : Node) :
    ∀ (p : Path) (fs : Node), (∃ es, lookup fs (parentP p) = some (.dir es)) → p ≠ [] →
      lookup (setNode fs p v) p = some v := by
  intro p
  induction p with
  | nil => intro fs _ hne; exact absurd rfl hne
  | cons k p' ih =>
    intro fs hpar _
    cases p' with
    | nil =>
      obtain ⟨es, hes⟩ := hpar
      cases fs with
      | file c => exact absurd hes (by simp [lookup, parentP])
      | dir cs =>
        clear hes
        cases hf : findChild cs k with
        | some w =>
          rw [show setNode (.dir cs) [k] v =
                .dir (replaceChild cs k (setNode w [] v)) by simp [setNode, hf]]
          rw [lookup_dir_cons, findChild_replaceChild_same hf (setNode w [] v)]
          simp [setNode_nil, lookup]
        | none =>
          rw [show setNode (.dir cs) [k] v = .dir (cs ++ [(k, v)]) by simp [setNode, hf]]
          rw [lookup_dir_cons, findChild_append_self hf v]
          simp [lookup]
    | cons a l =>
      obtain ⟨es, hes⟩ := hpar
      have hpl : parentP (k :: a :: l) = k :: parentP (a :: l) := rfl
      rw [hpl] at hes
      cases fs with
      | file c => simp [lookup] at hes
      | dir cs =>
        rw [lookup_dir_cons] at hes
        cases hf : findChild cs k with
        | none => rw [hf] at hes; simp at hes
        | some w =>
          rw [hf] at hes
          simp only [Option.some_bind] at hes
          rw [show setNode (.dir cs) (k :: a :: l) v =
                .dir (replaceChild cs k (setNode w (a :: l) v)) by simp [setNode, hf]]
          rw [lookup_dir_cons, findChild_replaceChild_same hf (setNode w (a :: l) v)]
          simp only [Option.some_bind]
          exact ih w ⟨es, hes⟩ (by simp)

theorem setNode_snoc (v : Node) (k : String) :
    ∀ (P : Path) (fs : Node) (es : List (String × Node)),
      lookup fs P = some (.dir es) →
      setNode fs (P ++ [k]) v = setNode fs P (.dir (setCh es k v)) := by
  intro P
  induction P with
  | nil =>
    intro fs es h
    simp only [lookup] at h
    cases h
    rw [setNode_nil]
    show setNode (.dir es) [k] v = .dir (setCh es k v)
    cases hf : findChild es k with
    | some w => simp [setNode, setCh, hf, setNode_nil]
    | none => simp [setNode, setCh, hf]
  | cons kp P' ih =>
    intro fs es h
    cases fs with
    | file c => rfl
    | dir cs =>
      rw [lookup_dir_cons] at h
      cases hf : findChild cs kp with
      | none => rw [hf] at h; simp at h
      | some w =>
        rw [hf] at h
        simp only [Option.some_bind] at h
        have hLHS : setNode (.dir cs) ((kp :: P') ++ [k]) v =
            .dir (replaceChild cs kp (setNode w (P' ++ [k]) v)) := by
          simp [setNode, hf]
        have hRHS : setNode (.dir cs) (kp :: P') (.dir (setCh es k v)) =
            .dir (replaceChild cs kp (setNode w P' (.dir (setCh es k v)))) := by
          simp [setNode, hf]
        rw [hLHS, hRHS, ih w es h]

theorem setNode_setNode (v1 v2 : Node) :
    ∀ (P : Path) (fs : Node), setNode (setNode fs P v1) P v2 = setNode fs P v2 := by
  intro P
  induction P with
  | nil => intro fs; rw [setNode_nil, setNode_nil]
  | cons k P' ih =>
    intro fs
    cases fs with
    | file c => rfl
    | dir cs =>
      cases hf : findChild cs k with
      | some w =>
        rw [show setNode (.dir cs) (k :: P') v1 =
              .dir (replaceChild cs k (setNode w P' v1)) by simp [setNode, hf]]
        rw [show setNode (.dir cs) (k :: P') v2 =
              .dir (replaceChild cs k (setNode w P' v2)) by simp [setNode, hf]]
        have hf2 : findChild (replaceChild cs k (setNode w P' v1)) k =
            some (setNode w P' v1) := findChild_replaceChild_same hf _
        rw [show setNode (.dir (replaceChild cs k (setNode w P' v1))) (k :: P') v2 =
              .dir (replaceChild (replaceChild cs k (setNode w P' v1)) k
                (setNode (setNode w P' v1) P' v2)) by simp [setNode, hf2]]
        rw [replaceChild_replaceChild, ih w]
      | none =>
        cases P' with
        | nil =>
          rw [show setNode (.dir cs) [k] v1 = .dir (cs ++ [(k, v1)]) by simp [setNode, hf]]
          rw [show setNode (.dir cs) [k] v2 = .dir (cs ++ [(k, v2)]) by simp [setNode, hf]]
          have hf2 : findChild (cs ++ [(k, v1)]) k = some v1 := findChild_append_self hf v1
          rw [show setNode (.dir (cs ++ [(k, v1)])) [k] v2 =
                .dir (replaceChild (cs ++ [(k, v1)]) k (setNode v1 [] v2)) by
              simp [setNode, hf2]]
          rw [setNode_nil, replaceChild_append_absent hf]
        | cons a l =>
          rw [show setNode (.dir cs) (k :: a :: l) v1 = .dir cs by simp [setNode, hf]]

theorem findChild_dropChild_other (cs : List (String × Node)) {k kx : String}
    (hne : k ≠ kx) : findChild (dropChild cs k) kx = findChild cs kx := by
  induction cs with
  | nil => rfl
  | cons kv cr ih =>
    obtain ⟨k', v⟩ := kv
    by_cases hk : k' = k
    · have hx : ¬ (k' = kx) := fun hh => hne (by rw [← hk, hh])
      simp [findChild, dropChild, hk, hx, hne]
    · by_cases hx : k' = kx
      · have hne2 : ¬ (kx = k) := fun hh => hne hh.symm
        simp [findChild, dropChild, hk, hx, hne2]
      · simp only [dropChild, if_neg hk, findChild, if_neg hx]
        exact ih

theorem findChild_not_contains {cs : List (String × Node)} {k : String}
    (h : (cs.map Prod.fst).contains k = false) : findChild cs k = none := by
  induction cs with
  | nil => rfl
  | cons kv cr ih =>
    obtain ⟨k', v⟩ := kv
    simp only [List.map_cons, List.contains_cons, Bool.or_eq_false_iff] at h
    have hk : ¬ (k' = k) := by
      intro hh
      rw [hh] at h
      simp at h
    simp only [findChild, if_neg hk]
    exact ih h.2

theorem nodupKeys_cons {k : String} {ks : List String} (h : nodupKeys (k :: ks) = true) :
    ks.contains k = false ∧ nodupKeys ks = true := by
  simp only [nodupKeys, Bool.and_eq_true, Bool.not_eq_true'] at h
  exact h

theorem findChild_dropChild_self {cs : List (String × Node)} {k : String}
    (h : nodupKeys (cs.map Prod.fst) = true) : findChild (dropChild cs k) k = none := by
  induction cs with
  | nil => rfl
  | cons kv cr ih =>
    obtain ⟨k', v⟩ := kv
    simp only [List.map_cons] at h
    obtain ⟨hc, hn⟩ := nodupKeys_cons h
    by_cases hk : k' = k
    · subst hk
      simp only [dropChild, if_pos rfl]
      exact findChild_not_contains hc
    · simp only [dropChild, if_neg hk, findChild, if_neg hk]
      exact ih hn

theorem removeNode_lookup_frame {p : Path} :
    ∀ (x : Path) (fs : Node), isPre p x = false → isPre x p = false →
      lookup (removeNode fs p) x = lookup fs x := by
  induction p with
  | nil => intro x fs h1 _; simp [isPre] at h1
  | cons kp p' ih =>
    intro x fs h1 h2
    cases x with
    | nil => simp [isPre] at h2
    | cons kx x' =>
      cases fs with
      | file c => rfl
      | dir cs =>
        by_cases hk : kp = kx
        · subst hk
          simp [isPre] at h1 h2
          cases p' with
          | nil => simp [isPre] at h1
          | cons a l =>
            cases hf : findChild cs kp with
            | some w =>
              rw [show removeNode (.dir cs) (kp :: a :: l) =
                    .dir (replaceChild cs kp (removeNode w (a :: l))) by simp [removeNode, hf]]
              rw [lookup_dir_cons, lookup_dir_cons, hf,
                findChild_replaceChild_same hf (removeNode w (a :: l))]
              simp only [Option.some_bind]
              exact ih x' w h1 h2
            | none =>
              rw [show removeNode (.dir cs) (kp :: a :: l) = .dir cs by simp [removeNode, hf]]
        · cases p' with
          | nil =>
            rw [show removeNode (.dir cs) [kp] = .dir (dropChild cs kp) by simp [removeNode]]
            rw [lookup_dir_cons, lookup_dir_cons, findChild_dropChild_other cs hk]
          | cons a l =>
            cases hf : findChild cs kp with
            | some w =>
              rw [show removeNode (.dir cs) (kp :: a :: l) =
                    .dir (replaceChild cs kp (removeNode w (a :: l))) by simp [removeNode, hf]]
              rw [lookup_dir_cons, lookup_dir_cons,
                findChild_replaceChild_other cs hk (removeNode w (a :: l))]
            | none =>
              rw [show removeNode (.dir cs) (kp :: a :: l) = .dir cs by simp [removeNode, hf]]

theorem kindAt_removeNode_above :
    ∀ (x p : Path) (fs : Node), isPre x p = true → isPre p x = false →
      kindAt (removeNode fs p) x = kindAt fs x := by
  intro x
  induction x with
  | nil =>
    intro p fs h1 h2
    cases p with
    | nil => simp [isPre] at h2
    | cons kp p' =>
      cases fs with
      | file c => rfl
      | dir cs =>
        cases p' with
        | nil => simp [removeNode, kindAt, lookup, toKind]
        | cons a l =>
          cases hf : findChild cs kp with
          | some w => simp [removeNode, hf, kindAt, lookup, toKind]
          | none => simp [removeNode, hf, kindAt, lookup, toKind]
  | cons kx x' ih =>
    intro p fs h1 h2
    cases p with
    | nil => simp [isPre] at h1
    | cons kp p' =>
      simp only [isPre, Bool.and_eq_true, decide_eq_true_eq] at h1
      obtain ⟨hk, h1'⟩ := h1
      subst hk
      simp [isPre] at h2
      cases fs with
      | file c => rfl
      | dir cs =>
        cases p' with
        | nil => simp [isPre] at h2
        | cons a l =>
          cases hf : findChild cs kx with
          | some w =>
            rw [show removeNode (.dir cs) (kx :: a :: l) =
                  .dir (replaceChild cs kx (removeNode w (a :: l))) by simp [removeNode, hf]]
            unfold kindAt
            rw [lookup_dir_cons, lookup_dir_cons, hf,
              findChild_replaceChild_same hf (removeNode w (a :: l))]
            simp only [Option.some_bind]
            exact ih (a :: l) w h1' h2
          | none =>
            rw [show removeNode (.dir cs) (kx :: a :: l) = .dir cs by simp [removeNode, hf]]

theorem wfbL_mem : ∀ (cs : List (String × Node)), wfbL cs = true →
    ∀ kv ∈ cs, wfb kv.2 = true := by
  intro cs
  induction cs with
  | nil => intro _ kv hkv; simp at hkv
  | cons kv0 cr ih =>
    intro h kv hkv
    obtain ⟨k0, v0⟩ := kv0
    simp only [wfbL, Bool.and_eq_true] at h
    rcases List.mem_cons.mp hkv with hh | hh
    · rw [hh]; exact h.1
    · exact ih h.2 kv hh

theorem wfb_dir_parts {cs : List (String × Node)} (h : wfb (.dir cs) = true) :
    nodupKeys (cs.map Prod.fst) = true ∧ wfbL cs = true := by
  simp only [wfb, Bool.and_eq_true] at h
  exact h

theorem findChild_mem {cs : List (String × Node)} {k : String} {w : Node}
    (h : findChild cs k = some w) : (k, w) ∈ cs := by
  induction cs with
  | nil => simp [findChild] at h
  | cons kv cr ih =>
    obtain ⟨k', v⟩ := kv
    by_cases hk : k' = k
    · subst hk
      simp only [findChild, if_pos rfl, if_true] at h
      have hv : v = w := Option.some.inj h
      rw [← hv]
      exact List.mem_cons_self _ _
    · simp only [findChild, if_neg hk] at h
      exact List.mem_cons_of_mem _ (ih h)

theorem wfb_lookup : ∀ (p : Path) (fs : Node), wfb fs = true →
    ∀ {t : Node}, lookup fs p = some t → wfb t = true := by
  intro p
  induction p with
  | nil =>
    intro fs hw t h
    simp only [lookup, Option.some.injEq] at h
    rw [← h]; exact hw
  | cons k p' ih =>
    intro fs hw t h
    cases fs with
    | file c => simp [lookup] at h
    | dir cs =>
      rw [lookup_dir_cons] at h
      cases hf : findChild cs k with
      | none => rw [hf] at h; simp at h
      | some w =>
        rw [hf] at h
        simp only [Option.some_bind] at h
        have hwL := (wfb_dir_parts hw).2
        exact ih w (wfbL_mem cs hwL (k, w) (findChild_mem hf)) h

theorem removeNode_lookup_self : ∀ (p : Path) (fs : Node), wfb fs = true → p ≠ [] →
    lookup (removeNode fs p) p = none := by
  intro p
  induction p with
  | nil => intro fs _ hne; exact absurd rfl hne
  | cons k p' ih =>
    intro fs hw _
    cases fs with
    | file c => rfl
    | dir cs =>
      cases p' with
      | nil =>
        rw [show removeNode (.dir cs) [k] = .dir (dropChild cs k) by simp [removeNode]]
        rw [lookup_dir_cons, findChild_dropChild_self (wfb_dir_parts hw).1]
        rfl
      | cons a l =>
        cases hf : findChild cs k with
        | none =>
          rw [show removeNode (.dir cs) (k :: a :: l) = .dir cs by simp [removeNode, hf]]
          rw [lookup_dir_cons, hf]
          rfl
        | some w =>
          rw [show removeNode (.dir cs) (k :: a :: l) =
                .dir (replaceChild cs k (removeNode w (a :: l))) by simp [removeNode, hf]]
          rw [lookup_dir_cons, findChild_replaceChild_same hf (removeNode w (a :: l))]
          simp only [Option.some_bind]
          exact ih w (wfb_lookup [k] (.dir cs) hw
            (by rw [lookup_dir_cons, hf]; simp [lookup])) (by simp)

theorem replaceChild_self_id : ∀ (cs : List (String × Node)) (k : String) (w : Node),
    findChild cs k = some w → replaceChild cs k w = cs := by
  intro cs
  induction cs with
  | nil => intro k w h; simp [findChild] at h
  | cons kv cr ih =>
    intro k w h
    obtain ⟨k', v⟩ := kv
    by_cases hk : k' = k
    · simp only [findChild, if_pos hk] at h
      have hv : v = w := Option.some.inj h
      simp [replaceChild, hk, hv]
    · simp only [findChild, if_neg hk] at h
      simp only [replaceChild, if_neg hk]
      rw [ih k w h]

theorem setNode_self_id : ∀ (P : Path) (fs t : Node),
    lookup fs P = some t → setNode fs P t = fs := by
  intro P
  induction P with
  | nil =>
    intro fs t h
    simp only [lookup, Option.some.injEq] at h
    rw [setNode_nil, ← h]
  | cons k P' ih =>
    intro fs t h
    cases fs with
    | file c => rfl
    | dir cs =>
      rw [lookup_dir_cons] at h
      cases hf : findChild cs k with
      | none => rw [hf] at h; simp at h
      | some w =>
        rw [hf] at h
        simp only [Option.some_bind] at h
        rw [show setNode (.dir cs) (k :: P') t =
              .dir (replaceChild cs k (setNode w P' t)) by simp [setNode, hf]]
        rw [ih w t h, replaceChild_self_id cs k w hf]

theorem filesEntries_cons_file (k0 c : String) (cr : List (String × Node)) :
    filesEntries ((k0, Node.file c) :: cr) = (k0, Node.file c) :: filesEntries cr := by
  simp [filesEntries]

theorem filesEntries_cons_dir (k0 : String) (ds : List (String × Node))
    (cr : List (String × Node)) :
    filesEntries ((k0, Node.dir ds) :: cr) = filesEntries cr := by
  simp [filesEntries]

theorem fileNames_cons_file (k0 c : String) (cr : List (String × Node)) :
    fileNames ((k0, Node.file c) :: cr) = k0 :: fileNames cr := by
  simp [fileNames, filesEntries_cons_file]

theorem fileNames_cons_dir (k0 : String) (ds : List (String × Node))
    (cr : List (String × Node)) :
    fileNames ((k0, Node.dir ds) :: cr) = fileNames cr := by
  simp [fileNames, filesEntries_cons_dir]

theorem dirNames_cons_file (k0 c : String) (cr : List (String × Node)) :
    dirNames ((k0, Node.file c) :: cr) = dirNames cr := by
  simp [dirNames]

theorem dirNames_cons_dir (k0 : String) (ds : List (String × Node))
    (cr : List (String × Node)) :
    dirNames ((k0, Node.dir ds) :: cr) = k0 :: dirNames cr := by
  simp [dirNames]

theorem filesEntries_shape : ∀ {cs : List (String × Node)} {kv : String × Node},
    kv ∈ filesEntries cs → ∃ c, kv.2 = Node.file c := by
  intro cs
  induction cs with
  | nil => intro kv h; simp [filesEntries] at h
  | cons kv0 cr ih =>
    intro kv h
    obtain ⟨k0, v0⟩ := kv0
    cases v0 with
    | file c =>
      rw [filesEntries_cons_file] at h
      rcases List.mem_cons.mp h with hh | hh
      · exact ⟨c, by rw [hh]⟩
      · exact ih hh
    | dir ds =>
      rw [filesEntries_cons_dir] at h
      exact ih h

theorem contains_false_not_mem {ks : List String} {k : String}
    (h : ks.contains k = false) : k ∉ ks := by
  intro hmem
  rw [List.contains_eq_any_beq] at h
  have hh : ks.any (fun x => k == x) = true := List.any_eq_true.mpr ⟨k, hmem, by simp⟩
  rw [hh] at h
  exact Bool.noConfusion h

theorem not_mem_contains_false {ks : List String} {k : String}
    (h : k ∉ ks) : ks.contains k = false := by
  cases hc : ks.contains k
  · rfl
  · rw [List.contains_eq_any_beq] at hc
    rcases List.any_eq_true.mp hc with ⟨x, hx, hbeq⟩
    have : k = x := by simpa using hbeq
    exact absurd (this ▸ hx) h

theorem mem_fileNames_keys : ∀ {cs : List (String × Node)} {k : String},
    k ∈ fileNames cs → k ∈ cs.map Prod.fst := by
  intro cs
  induction cs with
  | nil => intro k h; simp [fileNames, filesEntries] at h
  | cons kv0 cr ih =>
    intro k h
    obtain ⟨k0, v0⟩ := kv0
    cases v0 with
    | file c =>
      rw [fileNames_cons_file] at h
      rcases List.mem_cons.mp h with hh | hh
      · simp [hh]
      · simp only [List.map_cons, List.mem_cons]
        exact Or.inr (ih hh)
    | dir ds =>
      rw [fileNames_cons_dir] at h
      simp only [List.map_cons, List.mem_cons]
      exact Or.inr (ih h)

theorem mem_dirNames_keys : ∀ {cs : List (String × Node)} {k : String},
    k ∈ dirNames cs → k ∈ cs.map Prod.fst := by
  intro cs
  induction cs with
  | nil => intro k h; simp [dirNames] at h
  | cons kv0 cr ih =>
    intro k h
    obtain ⟨k0, v0⟩ := kv0
    cases v0 with
    | file c =>
      rw [dirNames_cons_file] at h
      simp only [List.map_cons, List.mem_cons]
      exact Or.inr (ih h)
    | dir ds =>
      rw [dirNames_cons_dir] at h
      rcases List.mem_cons.mp h with hh | hh
      · simp [hh]
      · simp only [List.map_cons, List.mem_cons]
        exact Or.inr (ih hh)

theorem filesEntries_findChild : ∀ {cs : List (String × Node)},
    nodupKeys (cs.map Prod.fst) = true → ∀ {kv : String × Node}, kv ∈ filesEntries cs →
    findChild cs kv.1 = some kv.2 := by
  intro cs
  induction cs with
  | nil => intro _ kv h; simp [filesEntries] at h
  | cons kv0 cr ih =>
    intro hnd kv h
    obtain ⟨k0, v0⟩ := kv0
    simp only [List.map_cons] at hnd
    obtain ⟨hc0, hnd'⟩ := nodupKeys_cons hnd
    have hne : ∀ kv2 : String × Node, kv2 ∈ filesEntries cr → ¬ (k0 = kv2.1) := by
      intro kv2 hkv2 hh
      exact contains_false_not_mem hc0
        (hh ▸ mem_fileNames_keys (List.mem_map_of_mem Prod.fst hkv2))
    cases v0 with
    | file c =>
      rw [filesEntries_cons_file] at h
      rcases List.mem_cons.mp h with hh | hh
      · rw [hh]; simp [findChild]
      · have hx : ¬ (k0 = kv.1) := hne kv hh
        simp only [findChild, if_neg hx]
        exact ih hnd' hh
    | dir ds =>
      rw [filesEntries_cons_dir] at h
      have hx : ¬ (k0 = kv.1) := hne kv h
      simp only [findChild, if_neg hx]
      exact ih hnd' h

theorem findChild_file_filesEntries : ∀ {cs : List (String × Node)} {y c : String},
    findChild cs y = some (.file c) → findChild (filesEntries cs) y = some (.file c) := by
  intro cs
  induction cs with
  | nil => intro y c h; simp [findChild] at h
  | cons kv0 cr ih =>
    intro y c h
    obtain ⟨k0, v0⟩ := kv0
    by_cases hk : k0 = y
    · simp only [findChild, if_pos hk] at h
      have hv : v0 = Node.file c := Option.some.inj h
      subst hv
      rw [filesEntries_cons_file]
      simp [findChild, hk]
    · simp only [findChild, if_neg hk] at h
      cases v0 with
      | file c0 => rw [filesEntries_cons_file]; simp only [findChild, if_neg hk]; exact ih h
      | dir ds => rw [filesEntries_cons_dir]; exact ih h

theorem findChild_none_filesEntries : ∀ {cs : List (String × Node)} {y : String},
    findChild cs y = none → findChild (filesEntries cs) y = none := by
  intro cs
  induction cs with
  | nil => intro y _; rfl
  | cons kv0 cr ih =>
    intro y h
    obtain ⟨k0, v0⟩ := kv0
    by_cases hk : k0 = y
    · simp [findChild, hk] at h
    · simp only [findChild, if_neg hk] at h
      cases v0 with
      | file c0 => rw [filesEntries_cons_file]; simp only [findChild, if_neg hk]; exact ih h
      | dir ds => rw [filesEntries_cons_dir]; exact ih h

theorem findChild_dir_filesEntries : ∀ {cs : List (String × Node)},
    nodupKeys (cs.map Prod.fst) = true → ∀ {y : String} {ds : List (String × Node)},
    findChild cs y = some (.dir ds) → findChild (filesEntries cs) y = none := by
  intro cs
  induction cs with
  | nil => intro _ y ds h; simp [findChild] at h
  | cons kv0 cr ih =>
    intro hnd y ds h
    obtain ⟨k0, v0⟩ := kv0
    simp only [List.map_cons] at hnd
    obtain ⟨hc0, hnd'⟩ := nodupKeys_cons hnd
    by_cases hk : k0 = y
    · simp only [findChild, if_pos hk] at h
      have hv : v0 = Node.dir ds := Option.some.inj h
      subst hv
      rw [filesEntries_cons_dir]
      subst hk
      apply findChild_none_filesEntries
      apply findChild_not_contains
      exact not_mem_contains_false (contains_false_not_mem hc0)
    · simp only [findChild, if_neg hk] at h
      cases v0 with
      | file c0 => rw [filesEntries_cons_file]; simp only [findChild, if_neg hk]; exact ih hnd' h
      | dir ds0 => rw [filesEntries_cons_dir]; exact ih hnd' h

theorem findChild_dir_mem_dirNames : ∀ {cs : List (String × Node)} {y : String}
    {ds : List (String × Node)}, findChild cs y = some (.dir ds) → y ∈ dirNames cs := by
  intro cs
  induction cs with
  | nil => intro y ds h; simp [findChild] at h
  | cons kv0 cr ih =>
    intro y ds h
    obtain ⟨k0, v0⟩ := kv0
    by_cases hk : k0 = y
    · simp only [findChild, if_pos hk] at h
      have hv : v0 = Node.dir ds := Option.some.inj h
      subst hv
      rw [dirNames_cons_dir]
      exact hk ▸ List.mem_cons_self _ _
    · simp only [findChild, if_neg hk] at h
      cases v0 with
      | file c0 => rw [dirNames_cons_file]; exact ih h
      | dir ds0 => rw [dirNames_cons_dir]; exact List.mem_cons_of_mem _ (ih h)

theorem dirNames_findChild : ∀ {cs : List (String × Node)} {y : String},
    y ∈ dirNames cs → ∃ ds, findChild cs y = some (.dir ds) ∨ ∃ c, findChild cs y = some (.file c) := by
  intro cs
  induction cs with
  | nil => intro y h; simp [dirNames] at h
  | cons kv0 cr ih =>
    intro y h
    obtain ⟨k0, v0⟩ := kv0
    by_cases hk : k0 = y
    · cases v0 with
      | file c => exact ⟨[], Or.inr ⟨c, by simp [findChild, hk]⟩⟩
      | dir ds => exact ⟨ds, Or.inl (by simp [findChild, hk])⟩
    · cases v0 with
      | file c =>
        rw [dirNames_cons_file] at h
        rcases ih h with ⟨ds, hds⟩
        exact ⟨ds, by simpa [findChild, hk] using hds⟩
      | dir ds0 =>
        rw [dirNames_cons_dir] at h
        rcases List.mem_cons.mp h with hh | hh
        · exact absurd hh.symm hk
        · rcases ih hh with ⟨ds, hds⟩
          exact ⟨ds, by simpa [findChild, hk] using hds⟩

theorem fileNames_nodup : ∀ {cs : List (String × Node)},
    nodupKeys (cs.map Prod.fst) = true → nodupKeys (fileNames cs) = true := by
  intro cs
  induction cs with
  | nil => intro _; rfl
  | cons kv0 cr ih =>
    intro hnd
    obtain ⟨k0, v0⟩ := kv0
    simp only [List.map_cons] at hnd
    obtain ⟨hc0, hnd'⟩ := nodupKeys_cons hnd
    cases v0 with
    | file c =>
      rw [fileNames_cons_file]
      have hnm : k0 ∉ fileNames cr := fun hm =>
        contains_false_not_mem hc0 (mem_fileNames_keys hm)
      simp only [nodupKeys, Bool.and_eq_true, Bool.not_eq_true']
      exact ⟨not_mem_contains_false hnm, ih hnd'⟩
    | dir ds =>
      rw [fileNames_cons_dir]
      exact ih hnd'

theorem dirNames_nodup : ∀ {cs : List (String × Node)},
    nodupKeys (cs.map Prod.fst) = true → nodupKeys (dirNames cs) = true := by
  intro cs
  induction cs with
  | nil => intro _; rfl
  | cons kv0 cr ih =>
    intro hnd
    obtain ⟨k0, v0⟩ := kv0
    simp only [List.map_cons] at hnd
    obtain ⟨hc0, hnd'⟩ := nodupKeys_cons hnd
    cases v0 with
    | file c =>
      rw [dirNames_cons_file]
      exact ih hnd'
    | dir ds =>
      rw [dirNames_cons_dir]
      have hnm : k0 ∉ dirNames cr := fun hm =>
        contains_false_not_mem hc0 (mem_dirNames_keys hm)
      simp only [nodupKeys, Bool.and_eq_true, Bool.not_eq_true']
      exact ⟨not_mem_contains_false hnm, ih hnd'⟩

theorem dirNames_cost_sum_aux : ∀ (cs : List (String × Node)),
    nodupKeys (cs.map Prod.fst) = true →
    ((dirNames cs).map (fun k =>
      match findChild cs k with
      | some t => dirCount t
      | none => 0)).sum = dirCountL cs := by
  intro cs
  induction cs with
  | nil => intro _; rfl
  | cons kv0 cr ih =>
    intro hnd
    obtain ⟨k0, v0⟩ := kv0
    simp only [List.map_cons] at hnd
    obtain ⟨hc0, hnd'⟩ := nodupKeys_cons hnd
    have htail : ∀ k ∈ dirNames cr,
        (match findChild ((k0, v0) :: cr) k with
         | some t => dirCount t
         | none => 0) =
        (match findChild cr k with
         | some t => dirCount t
         | none => 0) := by
      intro k hk
      have hne : ¬ (k0 = k) := fun hh =>
        contains_false_not_mem hc0 (hh ▸ mem_dirNames_keys hk)
      simp [findChild, hne]
    cases v0 with
    | file c =>
      rw [dirNames_cons_file, show dirCountL ((k0, Node.file c) :: cr) =
        dirCount (Node.file c) + dirCountL cr from rfl]
      rw [List.map_congr_left htail]
      rw [ih hnd']
      simp [dirCount]
    | dir ds =>
      rw [dirNames_cons_dir, show dirCountL ((k0, Node.dir ds) :: cr) =
        dirCount (Node.dir ds) + dirCountL cr from rfl]
      simp only [List.map_cons, List.sum_cons]
      rw [List.map_congr_left htail]
      rw [ih hnd']
      simp [findChild]

theorem costsA_cons (A : Node) (q : Path) (qs : List Path) :
    costsA A (q :: qs) =
      (match lookup A q with
       | some t => dirCount t
       | none => 0) + costsA A qs := by
  simp [costsA]

theorem costsA_append (A : Node) (qs1 qs2 : List Path) :
    costsA A (qs1 ++ qs2) = costsA A qs1 + costsA A qs2 := by
  simp [costsA]

theorem dirNames_cost_sum {A : Node} {q : Path} {cs : List (String × Node)}
    (hq : lookup A q = some (.dir cs)) (hnd : nodupKeys (cs.map Prod.fst) = true) :
    costsA A ((dirNames cs).map (fun k => q ++ [k])) = dirCountL cs := by
  unfold costsA
  rw [List.map_map]
  have hcong : ∀ k ∈ dirNames cs,
      ((fun qq =>
        match lookup A qq with
        | some t => dirCount t
        | none => 0) ∘ fun k => q ++ [k]) k =
      (fun k =>
        match findChild cs k with
        | some t => dirCount t
        | none => 0) k := by
    intro k _
    simp only [Function.comp_apply]
    rw [lookup_append, hq]
    simp only [Option.some_bind]
    rw [lookup_dir_cons]
    cases findChild cs k with
    | none => rfl
    | some t => simp [lookup]
  rw [List.map_congr_left hcong]
  exact dirNames_cost_sum_aux cs hnd

theorem lookup_dir_single (cs : List (String × Node)) (k : String) :
    lookup (.dir cs) [k] = findChild cs k := by
  rw [lookup_dir_cons]
  cases findChild cs k with
  | none => rfl
  | some v => simp [lookup]

theorem foldProcessClean (rforce : Bool) (F P : Path)
    (hFP : isPre F P = false) (hPF : isPre P F = false) (hPne : P ≠ []) :
    ∀ (fl done : List (String × Node)) (fs : Node) (lf : FailList),
      lookup fs P = some (.dir done) →
      (∀ kv ∈ fl, ∃ c, kv.2 = Node.file c) →
      (∀ kv ∈ fl, lookup fs (F ++ [kv.1]) = some kv.2) →
      (∀ kv ∈ fl, findChild done kv.1 = none) →
      nodupKeys (fl.map Prod.fst) = true →
      List.foldl (processFile false rforce F P) (fs, lf) (fl.map Prod.fst) =
        (setNode fs P (.dir (done ++ fl)), lf) := by
  intro fl
  induction fl with
  | nil =>
    intro done fs lf hP _ _ _ _
    simp only [List.map_nil, List.foldl_nil, List.append_nil]
    rw [setNode_self_id P fs _ hP]
  | cons kv fl' ih =>
    intro done fs lf hP hshape hsrc habsent hnd
    obtain ⟨k, v⟩ := kv
    obtain ⟨c, hc⟩ := hshape (k, v) (List.mem_cons_self _ _)
    simp only at hc
    have hlookupPk : lookup fs (P ++ [k]) = none := by
      rw [lookup_append, hP]
      simp only [Option.some_bind]
      rw [lookup_dir_single]
      exact habsent (k, v) (List.mem_cons_self _ _)
    have hisdirPk : isdir fs (P ++ [k]) = false := by
      unfold isdir; rw [hlookupPk]
    have hsrck : lookup fs (F ++ [k]) = some (.file c) := by
      have := hsrc (k, v) (List.mem_cons_self _ _)
      rwa [hc] at this
    have hparent : isdir fs (parentP (P ++ [k])) = true := by
      rw [show parentP (P ++ [k]) = P by simp [parentP]]
      unfold isdir; rw [hP]
    have hstep : processFile false rforce F P (fs, lf) k =
        (setNode fs (P ++ [k]) (.file c), lf) := by
      unfold processFile
      simp only [hisdirPk, Bool.false_eq_true, if_false]
      unfold shutilCopy
      simp only [hisdirPk, Bool.false_eq_true, if_false, hsrck, hparent, if_true]
    have hnk : ∀ kv' ∈ fl', ¬ (k = kv'.1) := by
      intro kv' hkv' hh
      simp only [List.map_cons] at hnd
      obtain ⟨hck, _⟩ := nodupKeys_cons hnd
      exact contains_false_not_mem hck
        (hh ▸ List.mem_map_of_mem Prod.fst hkv')
    have hrw : setNode fs (P ++ [k]) (.file c) =
        setNode fs P (.dir (done ++ [(k, v)])) := by
      rw [setNode_snoc _ k P fs done hP,
        setCh_absent (habsent (k, v) (List.mem_cons_self _ _)), hc]
    have hparbase : ∃ es, lookup fs (parentP P) = some (.dir es) :=
      isdir_iff.mp (lookup_some_parent_dir hPne hP)
    have hP' : lookup (setNode fs P (.dir (done ++ [(k, v)]))) P =
        some (.dir (done ++ [(k, v)])) :=
      setNode_lookup_self _ P fs hparbase hPne
    have hframe : ∀ x : Path, isPre P x = false → isPre x P = false →
        lookup (setNode fs P (.dir (done ++ [(k, v)]))) x = lookup fs x :=
      fun x h1 h2 => setNode_lookup_frame _ x fs h1 h2
    simp only [List.map_cons, List.foldl_cons, hstep, hrw]
    rw [ih (done ++ [(k, v)]) (setNode fs P (.dir (done ++ [(k, v)]))) lf hP'
      (fun kv' hkv' => hshape kv' (List.mem_cons_of_mem _ hkv'))
      (fun kv' hkv' => by
        rw [hframe (F ++ [kv'.1]) (isPre_false_of_incomp_right hPF hFP)
          (isPre_extend_left_false hFP)]
        exact hsrc kv' (List.mem_cons_of_mem _ hkv'))
      (fun kv' hkv' => by
        rw [findChild_append_other done (hnk kv' hkv') v]
        exact habsent kv' (List.mem_cons_of_mem _ hkv'))
      (by
        simp only [List.map_cons] at hnd
        exact (nodupKeys_cons hnd).2)]
    rw [setNode_setNode]
    rw [show ((done ++ [(k, v)]) ++ fl' : List (String × Node)) =
      done ++ ((k, v) :: fl') by simp]

theorem drop_len_append (a b : Path) : (a ++ b).drop a.length = b := by
  induction a with
  | nil => rfl
  | cons k a' ih => simpa using ih

theorem iterBody_clean (rforce : Bool) (srcPath dst : Path) (q : Path)
    (hsd1 : isPre srcPath dst = false) (hsd2 : isPre dst srcPath = false)
    (fs : Node) (cs : List (String × Node)) (lf : FailList)
    (hF : lookup fs (srcPath ++ q) = some (.dir cs))
    (hnd : nodupKeys (cs.map Prod.fst) = true)
    (hcp : lookup fs (dst ++ q) = some (.dir []) ∨
      (lookup fs (dst ++ q) = none ∧ isdir fs (parentP (dst ++ q)) = true))
    (hPne : dst ++ q ≠ []) :
    iterBody false rforce srcPath dst fs (srcPath ++ q) (fileNames cs) lf =
      (setNode fs (dst ++ q) (.dir (filesEntries cs)), lf) := by
  have hFP : isPre (srcPath ++ q) (dst ++ q) = false := by
    cases hh : isPre (srcPath ++ q) (dst ++ q)
    · rfl
    · have h1 : isPre srcPath (dst ++ q) = true := isPre_trans (isPre_append srcPath q) hh
      rw [isPre_false_of_incomp_right hsd1 hsd2] at h1
      exact Bool.noConfusion h1
  have hPF : isPre (dst ++ q) (srcPath ++ q) = false := by
    cases hh : isPre (dst ++ q) (srcPath ++ q)
    · rfl
    · have h1 : isPre dst (srcPath ++ q) = true := isPre_trans (isPre_append dst q) hh
      rw [isPre_false_of_incomp_right hsd2 hsd1] at h1
      exact Bool.noConfusion h1
  have hsrcAll : ∀ kv ∈ filesEntries cs,
      lookup fs ((srcPath ++ q) ++ [kv.1]) = some kv.2 := by
    intro kv hkv
    rw [lookup_append, hF]
    simp only [Option.some_bind]
    rw [lookup_dir_single]
    exact filesEntries_findChild hnd hkv
  have hndfl : nodupKeys ((filesEntries cs).map Prod.fst) = true := fileNames_nodup hnd
  unfold iterBody
  rw [drop_len_append]
  rcases hcp with hA | ⟨hB1, hB2⟩
  · have hisdir : isdir fs (dst ++ q) = true := by unfold isdir; rw [hA]
    simp only [hisdir, if_true]
    have := foldProcessClean rforce (srcPath ++ q) (dst ++ q) hFP hPF hPne
      (filesEntries cs) [] fs lf hA
      (fun kv hkv => filesEntries_shape hkv) hsrcAll
      (fun kv _ => rfl) hndfl
    simpa using this
  · have hisdir : isdir fs (dst ++ q) = false := by unfold isdir; rw [hB1]
    have hisfile : isfile fs (dst ++ q) = false := by unfold isfile; rw [hB1]
    simp only [hisdir, Bool.false_eq_true, if_false, hisfile, Bool.and_false]
    obtain ⟨pes, hpes⟩ := isdir_iff.mp hB2
    have hmk : mkdir fs (dst ++ q) = .ok (setNode fs (dst ++ q) (.dir [])) := by
      unfold mkdir
      rw [hB1, hpes]
    rw [hmk]
    have hfsm : lookup (setNode fs (dst ++ q) (.dir [])) (dst ++ q) = some (.dir []) :=
      setNode_lookup_self _ (dst ++ q) fs ⟨pes, hpes⟩ hPne
    have := foldProcessClean rforce (srcPath ++ q) (dst ++ q) hFP hPF hPne
      (filesEntries cs) [] (setNode fs (dst ++ q) (.dir [])) lf hfsm
      (fun kv hkv => filesEntries_shape hkv)
      (fun kv hkv => by
        rw [setNode_lookup_frame _ ((srcPath ++ q) ++ [kv.1]) fs
          (isPre_false_of_incomp_right hPF hFP) (isPre_extend_left_false hFP)]
        exact hsrcAll kv hkv)
      (fun kv _ => rfl) hndfl
    dsimp only
    unfold fileNames
    rw [this, setNode_setNode]
    simp

theorem dirNames_findChild_nodup : ∀ {cs : List (String × Node)},
    nodupKeys (cs.map Prod.fst) = true → ∀ {k : String}, k ∈ dirNames cs →
    ∃ ds, findChild cs k = some (.dir ds) := by
  intro cs
  induction cs with
  | nil => intro _ k h; simp [dirNames] at h
  | cons kv0 cr ih =>
    intro hnd k h
    obtain ⟨k0, v0⟩ := kv0
    simp only [List.map_cons] at hnd
    obtain ⟨hc0, hnd'⟩ := nodupKeys_cons hnd
    cases v0 with
    | file c =>
      rw [dirNames_cons_file] at h
      have hne : ¬ (k0 = k) := fun hh =>
        contains_false_not_mem hc0 (hh ▸ mem_dirNames_keys h)
      rcases ih hnd' h with ⟨ds, hds⟩
      exact ⟨ds, by simpa [findChild, hne] using hds⟩
    | dir ds0 =>
      rw [dirNames_cons_dir] at h
      rcases List.mem_cons.mp h with hh | hh
      · exact ⟨ds0, by simp [findChild, hh]⟩
      · have hne : ¬ (k0 = k) := fun hh2 =>
          contains_false_not_mem hc0 (hh2 ▸ mem_dirNames_keys hh)
        rcases ih hnd' hh with ⟨ds, hds⟩
        exact ⟨ds, by simpa [findChild, hne] using hds⟩

theorem kindAt_setNode_frame_all (v : Node) (x p : Path) (fs : Node)
    (h : isPre p x = false) : kindAt (setNode fs p v) x = kindAt fs x := by
  cases hx : isPre x p with
  | true => exact kindAt_setNode_above v x p fs hx h
  | false =>
    unfold kindAt
    rw [setNode_lookup_frame v x fs h hx]

theorem isPre_dropLast (p : Path) : isPre p.dropLast p = true := by
  cases p with
  | nil => exact isPre_refl []
  | cons a l =>
    have h : (a :: l).dropLast ++ [(a :: l).getLast (by simp)] = a :: l :=
      List.dropLast_append_getLast (by simp)
    calc isPre (a :: l).dropLast (a :: l)
        = isPre (a :: l).dropLast
            ((a :: l).dropLast ++ [(a :: l).getLast (by simp)]) := by rw [h]
      _ = true := isPre_append _ _

theorem dropLast_append_left {q : Path} (hq : q ≠ []) (d : Path) :
    (d ++ q).dropLast = d ++ q.dropLast := by
  rw [List.dropLast_append_of_ne_nil _ hq]

theorem walkW_nil (recM : Node → Option FailList → Path → Path → Option Bool → MRes)
    (mv staged rforce : Bool) (force : Option Bool) (src dst srcPath : Path)
    (fuel : Nat) (fs : Node) (slot : Option FailList) (lf : FailList) :
    walkW recM mv staged rforce force src dst srcPath fuel [] fs slot lf =
      .ok (fs, slot, lf) := by
  cases fuel <;> rfl

theorem walkW_step_clean
    {recM : Node → Option FailList → Path → Path → Option Bool → MRes}
    {rforce : Bool} {force : Option Bool} {src dst srcPath : Path}
    {fuel : Nat} {p : Path} {rest : List Path} {fs : Node} {slot : Option FailList}
    {lf : FailList} {cs : List (String × Node)}
    (hl : lookup fs p = some (.dir cs)) :
    walkW recM false false rforce force src dst srcPath (fuel + 1) (p :: rest) fs slot lf =
      walkW recM false false rforce force src dst srcPath fuel
        ((dirNames cs).map (fun k => p ++ [k]) ++ rest)
        (iterBody false rforce srcPath dst fs p (fileNames cs) lf).1 slot
        (iterBody false rforce srcPath dst fs p (fileNames cs) lf).2 := by
  conv_lhs => rw [walkW]
  rw [hl]
  dsimp only
  simp only [Bool.false_eq_true, if_false]

theorem isdir_eq_of_kindAt {fs1 fs2 : Node} {y : Path}
    (h : kindAt fs1 y = kindAt fs2 y) : isdir fs1 y = isdir fs2 y := by
  unfold kindAt at h
  unfold isdir
  generalize lookup fs1 y = o1 at h ⊢
  generalize lookup fs2 y = o2 at h ⊢
  cases o1 with
  | none =>
    cases o2 with
    | none => rfl
    | some n => cases n <;> simp [toKind] at h
  | some n1 =>
    cases o2 with
    | none => cases n1 <;> simp [toKind] at h
    | some n2 =>
      cases n1 <;> cases n2
      · rfl
      · simp [toKind] at h
      · simp [toKind] at h
      · rfl

theorem pairwise_snoc_keys (q : Path) : ∀ (ks : List String), nodupKeys ks = true →
    List.Pairwise (fun a b => isPre a b = false ∧ isPre b a = false)
      (ks.map (fun k => q ++ [k])) := by
  intro ks
  induction ks with
  | nil => intro _; exact List.Pairwise.nil
  | cons k ks ih =>
    intro hnd
    obtain ⟨hck, hndk⟩ := nodupKeys_cons hnd
    simp only [List.map_cons]
    refine List.pairwise_cons.mpr ⟨?_, ih hndk⟩
    intro b hb
    rcases List.mem_map.mp hb with ⟨k2, hk2, rfl⟩
    have hne : ¬ (k = k2) := fun hh => contains_false_not_mem hck (hh ▸ hk2)
    have hne2 : ¬ (k2 = k) := fun hh => hne (Eq.symm hh)
    constructor
    · rw [isPre_cancel q]
      simp [isPre, hne]
    · rw [isPre_cancel q]
      simp [isPre, hne2]

theorem walkClone (recM : Node → Option FailList → Path → Path → Option Bool → MRes)
    (rforce : Bool) (force : Option Bool) (src dst : Path) (A : Node)
    (hwf : wfb A = true)
    (h1 : isPre src dst = false) (h2 : isPre dst src = false) :
    ∀ (fuel : Nat) (qs : List Path) (fs : Node) (slot : Option FailList) (lf : FailList),
      lookup fs src = some A →
      (∀ q ∈ qs, ∃ cs, lookup A q = some (.dir cs)) →
      (∀ q ∈ qs, lookup fs (dst ++ q) = some (.dir []) ∨
        (lookup fs (dst ++ q) = none ∧ isdir fs (parentP (dst ++ q)) = true)) →
      List.Pairwise (fun a b => isPre a b = false ∧ isPre b a = false) qs →
      costsA A qs ≤ fuel →
      ∃ fs2,
        walkW recM false false rforce force src dst src fuel
            (qs.map (fun q => src ++ q)) fs slot lf = .ok (fs2, slot, lf) ∧
        (∀ q ∈ qs, ∀ r : Path, kindAt fs2 ((dst ++ q) ++ r) = kindAt A (q ++ r)) ∧
        (∀ x : Path, (∀ q ∈ qs, isPre (dst ++ q) x = false) → kindAt fs2 x = kindAt fs x) ∧
        (∀ x : Path, (∀ q ∈ qs, isPre (dst ++ q) x = false ∧ isPre x (dst ++ q) = false) →
          lookup fs2 x = lookup fs x) := by
  have hdne : dst ≠ [] := by
    intro hh
    rw [hh] at h2
    rw [show isPre ([] : Path) src = true from rfl] at h2
    exact Bool.noConfusion h2
  intro fuel
  induction fuel using Nat.strong_induction_on with
  | _ fuel IH =>
    intro qs fs slot lf hsrc hdirs hcp hpair hcost
    cases qs with
    | nil =>
      refine ⟨fs, ?_, ?_, ?_, ?_⟩
      · simp only [List.map_nil]
        exact walkW_nil recM false false rforce force src dst src fuel fs slot lf
      · intro q hq; simp at hq
      · intro x _; rfl
      · intro x _; rfl
    | cons q qs' =>
      obtain ⟨cs, hcs⟩ := hdirs q (List.mem_cons_self _ _)
      have hndcs : nodupKeys (cs.map Prod.fst) = true :=
        (wfb_dir_parts (wfb_lookup q A hwf hcs)).1
      have hcostq : costsA A (q :: qs') = (1 + dirCountL cs) + costsA A qs' := by
        rw [costsA_cons, hcs]
        rfl
      have hfuelpos : 1 ≤ fuel := by
        rw [hcostq] at hcost
        omega
      obtain ⟨fuel', rfl⟩ : ∃ f', fuel = f' + 1 := ⟨fuel - 1, by omega⟩
      have hlookq : lookup fs (src ++ q) = some (.dir cs) := by
        rw [lookup_append, hsrc]
        simpa using hcs
      have hPne : dst ++ q ≠ [] := by
        intro hh
        exact hdne (List.append_eq_nil.mp hh).1
      have hbody := iterBody_clean rforce src dst q h1 h2 fs cs lf hlookq hndcs
        (by
          rcases hcp q (List.mem_cons_self _ _) with hA | ⟨hB1, hB2⟩
          · exact Or.inl hA
          · exact Or.inr ⟨hB1, hB2⟩) hPne
      set fs1 := setNode fs (dst ++ q) (.dir (filesEntries cs)) with hfs1
      have hparq : ∃ es, lookup fs (parentP (dst ++ q)) = some (.dir es) := by
        rcases hcp q (List.mem_cons_self _ _) with hA | ⟨_, hB2⟩
        · exact isdir_iff.mp (lookup_some_parent_dir hPne hA)
        · exact isdir_iff.mp hB2
      have hfs1P : lookup fs1 (dst ++ q) = some (.dir (filesEntries cs)) :=
        setNode_lookup_self _ (dst ++ q) fs hparq hPne
      -- incomparability facts
      have hqx : ∀ z : List String, isPre src (dst ++ z) = false :=
        fun z => isPre_false_of_incomp_right h1 h2
      have hxq : ∀ z : List String, isPre (dst ++ z) src = false :=
        fun z => isPre_extend_left_false h2
      have hfs1src : lookup fs1 src = some A := by
        rw [hfs1, setNode_lookup_frame _ src fs (hxq q) (hqx q)]
        exact hsrc
      -- the new pending list
      have htail : ∀ q' ∈ qs', isPre q q' = false ∧ isPre q' q = false :=
        fun q' hq' => (List.pairwise_cons.mp hpair).1 q' hq'
      have htailne : ∀ q' ∈ qs', q' ≠ [] := by
        intro q' hq' hh
        have := (htail q' hq').2
        rw [hh] at this
        rw [show isPre ([] : Path) q = true from rfl] at this
        exact Bool.noConfusion this
      have hchildq : ∀ k ∈ dirNames cs, ∃ ds, lookup A (q ++ [k]) = some (.dir ds) := by
        intro k hk
        obtain ⟨ds, hds⟩ := dirNames_findChild_nodup hndcs hk
        refine ⟨ds, ?_⟩
        rw [lookup_append, hcs]
        simp only [Option.some_bind]
        rw [lookup_dir_single]
        exact hds
      have hnextmap : (dirNames cs).map (fun k => (src ++ q) ++ [k]) ++
          qs'.map (fun q0 => src ++ q0) =
          (((dirNames cs).map (fun k => q ++ [k]) ++ qs').map (fun q0 => src ++ q0)) := by
        rw [List.map_append, List.map_map]
        congr 1
        apply List.map_congr_left
        intro k _
        simp [Function.comp, List.append_assoc]
      -- hypotheses of IH at the new state
      have hdirs2 : ∀ q0 ∈ (dirNames cs).map (fun k => q ++ [k]) ++ qs',
          ∃ cs0, lookup A q0 = some (.dir cs0) := by
        intro q0 hq0
        rcases List.mem_append.mp hq0 with hh | hh
        · rcases List.mem_map.mp hh with ⟨k, hk, rfl⟩
          exact hchildq k hk
        · exact hdirs q0 (List.mem_cons_of_mem _ hh)
      have hcp2 : ∀ q0 ∈ (dirNames cs).map (fun k => q ++ [k]) ++ qs',
          lookup fs1 (dst ++ q0) = some (.dir []) ∨
          (lookup fs1 (dst ++ q0) = none ∧ isdir fs1 (parentP (dst ++ q0)) = true) := by
        intro q0 hq0
        rcases List.mem_append.mp hq0 with hh | hh
        · rcases List.mem_map.mp hh with ⟨k, hk, rfl⟩
          right
          obtain ⟨ds, hds⟩ := dirNames_findChild_nodup hndcs hk
          constructor
          · rw [show dst ++ (q ++ [k]) = (dst ++ q) ++ [k] by simp [List.append_assoc]]
            rw [lookup_append, hfs1P]
            simp only [Option.some_bind]
            rw [lookup_dir_single]
            exact findChild_dir_filesEntries hndcs hds
          · rw [show parentP (dst ++ (q ++ [k])) = dst ++ q by
              unfold parentP
              rw [dropLast_append_left (by simp : q ++ [k] ≠ []) dst]
              simp]
            unfold isdir
            rw [hfs1P]
        · have hinc1 : isPre (dst ++ q) (dst ++ q0) = false := by
            rw [isPre_cancel dst]
            exact (htail q0 hh).1
          have hinc2 : isPre (dst ++ q0) (dst ++ q) = false := by
            rw [isPre_cancel dst]
            exact (htail q0 hh).2
          have hval : lookup fs1 (dst ++ q0) = lookup fs (dst ++ q0) := by
            rw [hfs1]
            exact setNode_lookup_frame _ _ fs hinc1 hinc2
          rcases hcp q0 (List.mem_cons_of_mem _ hh) with hA | ⟨hB1, hB2⟩
          · exact Or.inl (by rw [hval]; exact hA)
          · right
            refine ⟨by rw [hval]; exact hB1, ?_⟩
            have hq0ne : q0 ≠ [] := htailne q0 hh
            have hpp : parentP (dst ++ q0) = dst ++ parentP q0 := by
              unfold parentP
              exact dropLast_append_left hq0ne dst
            have hkpar : kindAt fs1 (parentP (dst ++ q0)) = kindAt fs (parentP (dst ++ q0)) := by
              rw [hfs1]
              apply kindAt_setNode_frame_all
              rw [hpp, isPre_cancel dst]
              cases hc : isPre q (parentP q0) with
              | false => rfl
              | true =>
                have : isPre q q0 = true :=
                  isPre_trans hc (isPre_dropLast q0)
                rw [(htail q0 hh).1] at this
                exact Bool.noConfusion this
            rw [isdir_eq_of_kindAt hkpar]
            exact hB2
      have hpair2 : List.Pairwise (fun a b => isPre a b = false ∧ isPre b a = false)
          ((dirNames cs).map (fun k => q ++ [k]) ++ qs') := by
        rw [List.pairwise_append]
        refine ⟨pairwise_snoc_keys q (dirNames cs) (dirNames_nodup hndcs),
          (List.pairwise_cons.mp hpair).2, ?_⟩
        · intro a ha b hb
          rcases List.mem_map.mp ha with ⟨k, hk, rfl⟩
          constructor
          · cases hc : isPre (q ++ [k]) b with
            | false => rfl
            | true =>
              have : isPre q b = true := isPre_trans (isPre_append q [k]) hc
              rw [(htail b hb).1] at this
              exact Bool.noConfusion this
          · cases hc : isPre b (q ++ [k]) with
            | false => rfl
            | true =>
              rcases isPre_snoc hc with hh | hh
              · rw [(htail b hb).2] at hh
                exact Bool.noConfusion hh
              · rw [hh] at hb
                have := (htail (q ++ [k]) hb).1
                rw [isPre_append q [k]] at this
                exact Bool.noConfusion this
      have hcost2 : costsA A ((dirNames cs).map (fun k => q ++ [k]) ++ qs') ≤ fuel' := by
        rw [costsA_append, dirNames_cost_sum hcs hndcs]
        rw [hcostq] at hcost
        omega
      obtain ⟨fs2, hw, hAgree, hKfr, hVfr⟩ := IH fuel' (by omega)
        ((dirNames cs).map (fun k => q ++ [k]) ++ qs') fs1 slot lf
        hfs1src hdirs2 hcp2 hpair2 hcost2
      refine ⟨fs2, ?_, ?_, ?_, ?_⟩
      · simp only [List.map_cons]
        rw [walkW_step_clean hlookq, hbody]
        rw [hnextmap]
        exact hw
      · -- agreement
        intro q0 hq0 r
        rcases List.mem_cons.mp hq0 with heq | hq0tail
        · -- the head element q, by cases on r
          rw [heq]
          cases r with
          | nil =>
            have hx : ∀ qq ∈ (dirNames cs).map (fun k => q ++ [k]) ++ qs',
                isPre (dst ++ qq) ((dst ++ q) ++ []) = false := by
              intro qq hqq
              simp only [List.append_nil]
              rcases List.mem_append.mp hqq with hh | hh
              · rcases List.mem_map.mp hh with ⟨k, hk, rfl⟩
                rw [show dst ++ (q ++ [k]) = (dst ++ q) ++ [k] by simp]
                exact isPre_append_right_false (by simp)
              · rw [isPre_cancel dst]
                exact (htail qq hh).2
            rw [hKfr _ hx]
            simp only [List.append_nil]
            unfold kindAt
            rw [hfs1P, hcs]
            rfl
          | cons y r' =>
            cases hfy : findChild cs y with
            | some w =>
              cases w with
              | file c =>
                have hkney : ∀ k ∈ dirNames cs, k ≠ y := by
                  intro k hk hh
                  obtain ⟨ds, hds⟩ := dirNames_findChild_nodup hndcs hk
                  rw [hh, hfy] at hds
                  exact Node.noConfusion (Option.some.inj hds)
                have hx : ∀ qq ∈ (dirNames cs).map (fun k => q ++ [k]) ++ qs',
                    isPre (dst ++ qq) ((dst ++ q) ++ (y :: r')) = false := by
                  intro qq hqq
                  rcases List.mem_append.mp hqq with hh | hh
                  · rcases List.mem_map.mp hh with ⟨k, hk, rfl⟩
                    rw [show dst ++ (q ++ [k]) = (dst ++ q) ++ [k] by simp]
                    rw [isPre_cancel (dst ++ q)]
                    simp [isPre, hkney k hk]
                  · rw [show (dst ++ q) ++ (y :: r') = dst ++ (q ++ (y :: r')) by simp]
                    rw [isPre_cancel dst]
                    exact isPre_false_of_incomp_right (htail qq hh).2 (htail qq hh).1
                rw [hKfr _ hx]
                unfold kindAt
                rw [show (dst ++ q) ++ (y :: r') = ((dst ++ q) ++ [y]) ++ r' by simp]
                rw [lookup_append, lookup_append, hfs1P]
                simp only [Option.some_bind]
                rw [lookup_dir_single, findChild_file_filesEntries hfy]
                rw [show q ++ (y :: r') = (q ++ [y]) ++ r' by simp]
                rw [lookup_append, lookup_append, hcs]
                simp only [Option.some_bind]
                rw [lookup_dir_single, hfy]
                simp only [Option.some_bind]
              | dir ds =>
                have hymem : y ∈ dirNames cs := findChild_dir_mem_dirNames hfy
                have hmem2 : q ++ [y] ∈ (dirNames cs).map (fun k => q ++ [k]) ++ qs' :=
                  List.mem_append.mpr (Or.inl (List.mem_map.mpr ⟨y, hymem, rfl⟩))
                have := hAgree (q ++ [y]) hmem2 r'
                rw [show dst ++ (q ++ [y]) = (dst ++ q) ++ [y] by simp] at this
                rw [show ((dst ++ q) ++ [y]) ++ r' = (dst ++ q) ++ (y :: r') by simp] at this
                rw [show (q ++ [y]) ++ r' = q ++ (y :: r') by simp] at this
                exact this
            | none =>
              have hkney : ∀ k ∈ dirNames cs, k ≠ y := by
                intro k hk hh
                obtain ⟨ds, hds⟩ := dirNames_findChild_nodup hndcs hk
                rw [hh, hfy] at hds
                exact Option.noConfusion hds
              have hx : ∀ qq ∈ (dirNames cs).map (fun k => q ++ [k]) ++ qs',
                  isPre (dst ++ qq) ((dst ++ q) ++ (y :: r')) = false := by
                intro qq hqq
                rcases List.mem_append.mp hqq with hh | hh
                · rcases List.mem_map.mp hh with ⟨k, hk, rfl⟩
                  rw [show dst ++ (q ++ [k]) = (dst ++ q) ++ [k] by simp]
                  rw [isPre_cancel (dst ++ q)]
                  simp [isPre, hkney k hk]
                · rw [show (dst ++ q) ++ (y :: r') = dst ++ (q ++ (y :: r')) by simp]
                  rw [isPre_cancel dst]
                  exact isPre_false_of_incomp_right (htail qq hh).2 (htail qq hh).1
              rw [hKfr _ hx]
              unfold kindAt
              rw [show (dst ++ q) ++ (y :: r') = ((dst ++ q) ++ [y]) ++ r' by simp]
              rw [lookup_append, lookup_append, hfs1P]
              simp only [Option.some_bind]
              rw [lookup_dir_single, findChild_none_filesEntries hfy]
              rw [show q ++ (y :: r') = (q ++ [y]) ++ r' by simp]
              rw [lookup_append, lookup_append, hcs]
              simp only [Option.some_bind]
              rw [lookup_dir_single, hfy]
        · -- a tail element
          have hmem2 : q0 ∈ (dirNames cs).map (fun k => q ++ [k]) ++ qs' :=
            List.mem_append.mpr (Or.inr hq0tail)
          exact hAgree q0 hmem2 r
      · -- kind frame
        intro x hx
        have hx2 : ∀ qq ∈ (dirNames cs).map (fun k => q ++ [k]) ++ qs',
            isPre (dst ++ qq) x = false := by
          intro qq hqq
          rcases List.mem_append.mp hqq with hh | hh
          · rcases List.mem_map.mp hh with ⟨k, hk, rfl⟩
            cases hc : isPre (dst ++ (q ++ [k])) x with
            | false => rfl
            | true =>
              have hup : isPre (dst ++ q) (dst ++ (q ++ [k])) = true := by
                rw [show dst ++ (q ++ [k]) = (dst ++ q) ++ [k] by simp]
                exact isPre_append _ _
              have := isPre_trans hup hc
              rw [hx q (List.mem_cons_self _ _)] at this
              exact Bool.noConfusion this
          · exact hx qq (List.mem_cons_of_mem _ hh)
        rw [hKfr x hx2, hfs1]
        exact kindAt_setNode_frame_all _ x (dst ++ q) fs (hx q (List.mem_cons_self _ _))
      · -- value frame
        intro x hx
        have hx2 : ∀ qq ∈ (dirNames cs).map (fun k => q ++ [k]) ++ qs',
            isPre (dst ++ qq) x = false ∧ isPre x (dst ++ qq) = false := by
          intro qq hqq
          rcases List.mem_append.mp hqq with hh | hh
          · rcases List.mem_map.mp hh with ⟨k, hk, rfl⟩
            obtain ⟨hxa, hxb⟩ := hx q (List.mem_cons_self _ _)
            constructor
            · cases hc : isPre (dst ++ (q ++ [k])) x with
              | false => rfl
              | true =>
                have hup : isPre (dst ++ q) (dst ++ (q ++ [k])) = true := by
                  rw [show dst ++ (q ++ [k]) = (dst ++ q) ++ [k] by simp]
                  exact isPre_append _ _
                have := isPre_trans hup hc
                rw [hxa] at this
                exact Bool.noConfusion this
            · cases hc : isPre x (dst ++ (q ++ [k])) with
              | false => rfl
              | true =>
                rw [show dst ++ (q ++ [k]) = (dst ++ q) ++ [k] by simp] at hc
                rcases isPre_snoc hc with hh2 | hh2
                · rw [hxb] at hh2
                  exact Bool.noConfusion hh2
                · rw [hh2] at hxa
                  rw [isPre_append (dst ++ q) [k]] at hxa
                  exact Bool.noConfusion hxa
          · exact hx qq (List.mem_cons_of_mem _ hh)
        rw [hVfr x hx2, hfs1]
        exact setNode_lookup_frame _ x fs (hx q (List.mem_cons_self _ _)).1
          (hx q (List.mem_cons_self _ _)).2

/-
Claim theorems.
-/

/-- C1: the claim states that the cycle-breaking staged merge of a strict
descendant A into its ancestor B places every file of A under B at the same
relative path, for every tree shape of A.  The code violates this: the
source runs the staged-tree deletion (move mode) or reconciliation (clone
mode) inside the walk loop, after the first visited folder, so only the
root-level files of A reach B and nested files are lost (move mode) or left
only in the restored A (clone mode).  This theorem evaluates the code on
b/a containing x and sub/y: in move mode sub/y ends up nowhere, and in
clone mode A is restored identically but sub/y never reaches b. -/
theorem merge_staged_nested_loses_files :
    mergeF 20 false "stg" fsC1 none ["b", "a"] ["b"] true none =
      .ok (some true, fsC1m, some []) ∧
    kindAt fsC1 ["b", "a", "sub", "y"] = some (some "Y") ∧
    lookup fsC1m ["b", "sub", "y"] = none ∧
    lookup fsC1m ["b", "a"] = none ∧
    mergeF 20 false "stg" fsC1 none ["b", "a"] ["b"] false none =
      .ok (some true, fsC1c, some []) ∧
    lookup fsC1c ["b", "a"] = lookup fsC1 ["b", "a"] ∧
    lookup fsC1c ["b", "sub", "y"] = none :=
  ⟨rfl, rfl, rfl, rfl, rfl, rfl, rfl⟩

/-- C2: the claim states that for merge(src, dst, move=True) the recursive
deletion of the source tree happens only after the walk visited every
folder, so no file content is lost.  The code instead runs shutil.rmtree of
the whole source inside the walk loop, directly after the first yielded
folder; the walk then finds the remaining folders deleted and skips them.
Evaluated on a containing x and sub/y merged into the empty directory d:
the call reports complete success, x is moved, but sub/y is deleted without
ever being moved and a is gone. -/
theorem merge_move_deletes_source_before_walk_completes :
    mergeF 20 false "stg" fsC2 none ["a"] ["d"] true none =
      .ok (some true, fsC2m, some []) ∧
    kindAt fsC2 ["a", "sub", "y"] = some (some "Y") ∧
    lookup fsC2m ["d", "sub", "y"] = none ∧
    lookup fsC2m ["a"] = none :=
  ⟨rfl, rfl, rfl, rfl⟩

/-- C3: merging a directory A into its own strict descendant A ++ r is
rejected with the PermissionError hard error before any filesystem mutation
or failure-list publication: the state returned with the error is exactly
the input state. -/
theorem merge_dst_inside_src_raises_and_preserves
    (fuel : Nat) (dflt : Bool) (stage : String) (fs : Node) (slot : Option FailList)
    (A : Path) (r : List String) (mv : Bool) (force : Option Bool)
    (hr : r ≠ []) (hA : isdir fs A = true) (hB : isdir fs (A ++ r) = true) :
    mergeF (fuel + 1) dflt stage fs slot A (A ++ r) mv force =
      .error (.permissionDenied, fs, slot) := by
  have hne : A ≠ A ++ r := append_right_ne hr
  have h1 : isPre (A ++ r) A = false := isPre_append_right_false hr
  have h2 : isPre A (A ++ r) = true := isPre_append A r
  show mergeW _ fuel dflt stage fs slot A (A ++ r) mv force = _
  unfold mergeW
  simp [hA, hB, hne, rel, h1, h2]

/-- Witness for C3 at a concrete input. -/
theorem merge_dst_inside_src_witness :
    mergeF 5 false "s" fsW3 none ["p"] (["p"] ++ ["q"]) false none =
      .error (.permissionDenied, fsW3, none) :=
  merge_dst_inside_src_raises_and_preserves 4 false "s" fsW3 none ["p"] ["q"] false none
    (by decide) (by rfl) (by rfl)

/-- C4 counterexample: the claim states that merge(d, d) returns success
(True, with an empty failure list) and reports no failures through the
Failure Accumulator.  The code instead hits the bare return of the
same-path branch: it returns None, not True, and never calls _set_failed,
so the accumulator still holds the previous call's records (here a
non-empty stale list). -/
theorem merge_self_cex :
    mergeF 10 false "s" fsC4 (some [oldRec4]) ["d"] ["d"] false none =
      .ok (none, fsC4, some [oldRec4]) ∧
    (some [oldRec4] : Option FailList) ≠ some [] ∧
    (none : Option Bool) ≠ some true :=
  ⟨rfl, by decide, by decide⟩

/-- C4 as amended: merging any directory into itself is a no-op on the
filesystem, but it returns None (the bare return, no boolean) and leaves
the Failure Accumulator slot exactly as it was, publishing nothing. -/
theorem merge_self_noop
    (fuel : Nat) (dflt : Bool) (stage : String) (fs : Node) (slot : Option FailList)
    (d : Path) (mv : Bool) (force : Option Bool) (h : isdir fs d = true) :
    mergeF (fuel + 1) dflt stage fs slot d d mv force = .ok (none, fs, slot) := by
  show mergeW _ fuel dflt stage fs slot d d mv force = _
  unfold mergeW
  simp [h]

/-- Witness for the amended C4 at a concrete input. -/
theorem merge_self_noop_witness :
    mergeF 3 true "u" fsC4 none ["d"] ["d"] true (some false) = .ok (none, fsC4, none) :=
  merge_self_noop 2 true "u" fsC4 none ["d"] true (some false) (by rfl)

/-- C6: merge raises the hard NotADirectoryError whenever either endpoint is
missing or not a directory, without touching the filesystem or the Failure
Accumulator slot (so the violation is never recorded as a soft failure and
neither endpoint is created). -/
theorem merge_requires_directories
    (fuel : Nat) (dflt : Bool) (stage : String) (fs : Node) (slot : Option FailList)
    (src dst : Path) (mv : Bool) (force : Option Bool)
    (h : isdir fs src = false ∨ isdir fs dst = false) :
    mergeF (fuel + 1) dflt stage fs slot src dst mv force =
      .error (.notADirectory, fs, slot) := by
  show mergeW _ fuel dflt stage fs slot src dst mv force = _
  unfold mergeW
  rcases h with h | h
  · simp [h]
  · by_cases h2 : isdir fs src = true
    · simp [h, h2]
    · simp [h2]

/-- Witness for C6 at a concrete input: neither f (a file) nor g (missing)
is a directory. -/
theorem merge_requires_directories_witness :
    mergeF 4 false "s" fsW6 none ["f"] ["g"] true none =
      .error (.notADirectory, fsW6, none) :=
  merge_requires_directories 3 false "s" fsW6 none ["f"] ["g"] true none (Or.inl (by rfl))

/-- C8: the claim states move(X, Y) then move(Y, X) restores X when no
conflicts occur.  Evaluated on X holding only the nested file sub/y and Y
an existing empty directory: the first move goes through merge in move
mode, whose in-loop rmtree deletes sub/y before the walk reaches sub, and
both calls report complete success with empty failure lists; the round trip
returns an empty X, so the original nested file is lost and the claim
fails. -/
theorem move_roundtrip_loses_nested :
    moveF 20 false "s" fsC8 none ["X"] ["Y"] false none =
      .ok (["Y"], Node.dir [("Y", .dir [])], some []) ∧
    moveF 20 false "s" (Node.dir [("Y", .dir [])]) (some []) ["Y"] ["X"] false none =
      .ok (["X"], Node.dir [("X", .dir [])], some []) ∧
    kindAt fsC8 ["X", "sub", "y"] = some (some "Y") ∧
    lookup (Node.dir [("X", .dir [])]) ["X", "sub", "y"] = none :=
  ⟨rfl, rfl, rfl, rfl⟩

/-- C5 counterexample: the claim states that every root-level merge, clone
or move that completes normally publishes a fresh list, so the accumulator
never still holds the previous call's list.  clone of a directory onto
itself completes normally (it returns the destination path) but reaches the
same-path bare return inside merge, so nothing is published and the
accumulator still holds the stale non-empty list of the previous call. -/
theorem clone_self_completes_without_publishing :
    cloneF 10 false "s" fsC5 (some [oldRec5]) ["e"] ["e"] false none =
      .ok (["e"], fsC5, some [oldRec5]) ∧
    (some [oldRec5] : Option FailList) ≠ some [] ∧ [oldRec5] ≠ ([] : FailList) :=
  ⟨rfl, by decide, by decide⟩

theorem mergeF_succ (fuel : Nat) (dflt : Bool) (stage : String) (fs : Node)
    (slot : Option FailList) (src dst : Path) (mv : Bool) (force : Option Bool) :
    mergeF (fuel + 1) dflt stage fs slot src dst mv force =
      mergeW (fun fs1 slot1 s d f1 => mergeF fuel dflt stage fs1 slot1 s d true f1)
        fuel dflt stage fs slot src dst mv force := rfl

theorem mergeW_ok_none {recM : Node → Option FailList → Path → Path → Option Bool → MRes}
    {wfuel : Nat} {dflt : Bool} {stage : String} {fs : Node} {slot : Option FailList}
    {src dst : Path} {mv : Bool} {force : Option Bool} {fs2 : Node} {slot2 : Option FailList}
    (h : mergeW recM wfuel dflt stage fs slot src dst mv force = .ok (none, fs2, slot2)) :
    fs2 = fs ∧ slot2 = slot := by
  unfold mergeW at h
  split at h
  · simp at h
  · split at h
    · simp at h
    · split at h
      · simp at h
        exact ⟨h.1.symm, h.2.symm⟩
      · split at h
        · dsimp only at h
          split at h
          · simp at h
          · split at h
            · simp at h
            · simp at h
        · split at h
          · simp at h
          · dsimp only at h
            split at h
            · simp at h
            · simp at h

theorem mergeW_ok_some {recM : Node → Option FailList → Path → Path → Option Bool → MRes}
    {wfuel : Nat} {dflt : Bool} {stage : String} {fs : Node} {slot : Option FailList}
    {src dst : Path} {mv : Bool} {force : Option Bool} {b : Bool} {fs2 : Node}
    {slot2 : Option FailList}
    (h : mergeW recM wfuel dflt stage fs slot src dst mv force = .ok (some b, fs2, slot2)) :
    ∃ l : FailList, slot2 = some l ∧ b = l.isEmpty := by
  unfold mergeW at h
  split at h
  · simp at h
  · split at h
    · simp at h
    · split at h
      · simp at h
      · split at h
        · dsimp only at h
          split at h
          · simp at h
          · split at h
            · simp at h
            · rename_i fs3 slot3 lf heq
              simp at h
              exact ⟨lf, h.2.2.symm, h.1.symm⟩
        · split at h
          · simp at h
          · dsimp only at h
            split at h
            · simp at h
            · rename_i fs3 slot3 lf heq
              simp at h
              exact ⟨lf, h.2.2.symm, h.1.symm⟩

theorem mergeF_ok_slot {fuel : Nat} {dflt : Bool} {stage : String} {fs : Node}
    {slot : Option FailList} {src dst : Path} {mv : Bool} {force : Option Bool}
    {ob : Option Bool} {fs2 : Node} {slot2 : Option FailList}
    (h : mergeF fuel dflt stage fs slot src dst mv force = .ok (ob, fs2, slot2)) :
    slot2 = slot ∨ ∃ l : FailList, slot2 = some l := by
  cases fuel with
  | zero => simp [mergeF] at h
  | succ fuel' =>
    rw [mergeF_succ] at h
    cases ob with
    | none => exact Or.inl (mergeW_ok_none h).2
    | some b =>
      obtain ⟨l, hl, _⟩ := mergeW_ok_some h
      exact Or.inr ⟨l, hl⟩

/-- C5 as amended: merge publishes its freshly accumulated record list
wholesale whenever it completes with a boolean result (the list published
is exactly the one whose emptiness the boolean reports, including the empty
list on pure success), and move always leaves a list published; the one
exception, forced by the counterexample, is the same-path bare return of
merge (reached directly or through clone), which mutates nothing and
publishes nothing, leaving the previous call's list in place. -/
theorem relocation_publishes_wholesale_or_self_noop :
    (∀ (fuel : Nat) (dflt : Bool) (stage : String) (fs : Node) (slot : Option FailList)
       (src dst : Path) (mv : Bool) (force : Option Bool) (b : Bool) (fs2 : Node)
       (slot2 : Option FailList),
      mergeF fuel dflt stage fs slot src dst mv force = .ok (some b, fs2, slot2) →
        ∃ l : FailList, slot2 = some l ∧ b = l.isEmpty) ∧
    (∀ (fuel : Nat) (dflt : Bool) (stage : String) (fs : Node) (slot : Option FailList)
       (src dst : Path) (mv : Bool) (force : Option Bool) (fs2 : Node)
       (slot2 : Option FailList),
      mergeF fuel dflt stage fs slot src dst mv force = .ok (none, fs2, slot2) →
        fs2 = fs ∧ slot2 = slot) ∧
    (∀ (fuel : Nat) (dflt : Bool) (stage : String) (fs : Node) (slot : Option FailList)
       (src dst : Path) (into : Bool) (force : Option Bool) (p : Path) (fs2 : Node)
       (slot2 : Option FailList),
      moveF fuel dflt stage fs slot src dst into force = .ok (p, fs2, slot2) →
        ∃ l : FailList, slot2 = some l) := by
  refine ⟨?_, ?_, ?_⟩
  · intro fuel dflt stage fs slot src dst mv force b fs2 slot2 h
    cases fuel with
    | zero => simp [mergeF] at h
    | succ fuel' =>
      rw [mergeF_succ] at h
      exact mergeW_ok_some h
  · intro fuel dflt stage fs slot src dst mv force fs2 slot2 h
    cases fuel with
    | zero => simp [mergeF] at h
    | succ fuel' =>
      rw [mergeF_succ] at h
      exact mergeW_ok_none h
  · intro fuel dflt stage fs slot src dst into force p fs2 slot2 h
    unfold moveF at h
    split at h
    · simp at h
    · dsimp only at h
      generalize htd : (if into then dst ++ [lastName src] else dst) = tdst at h
      split at h
      · split at h
        · split at h
          · split at h
            · split at h
              · simp at h
              · simp at h
                exact ⟨[], h.2.2.symm⟩
            · simp at h
          · split at h
            · simp at h
            · rename_i ob fs3 slot3 heq
              simp at h
              rcases mergeF_ok_slot heq with hs | ⟨l, hl⟩
              · exact ⟨[], by rw [← h.2.2, hs]⟩
              · exact ⟨l, by rw [← h.2.2, hl]⟩
        · split at h
          · split at h
            · split at h
              · simp at h
              · simp at h
                exact ⟨[], h.2.2.symm⟩
            · simp at h
          · split at h
            · simp at h
            · simp at h
              exact ⟨[], h.2.2.symm⟩
      · split at h
        · simp at h
        · split at h
          · simp at h
          · simp at h
            exact ⟨[], h.2.2.symm⟩

/-- Witness for the amended C5: a concrete successful move publishes a
list, namely the empty one. -/
theorem relocation_publishes_witness :
    ∃ l : FailList, (some [] : Option FailList) = some l :=
  relocation_publishes_wholesale_or_self_noop.2.2 5 false "s" fsW5 none ["src"]
    ["out", "dst"] false none ["out", "dst"]
    (Node.dir [("out", .dir [("dst", .file "S")])]) (some []) rfl

/-- C7 counterexample: the claim quantifies over every directory dirA and
existing file fileB; taken literally it also covers a fileB lying inside
dirA.  There, with force=true, the code deletes fileB and creates a
directory at its path, but the subsequent merge then rejects dirA into its
own descendant with the PermissionError hard error, so the call raises and
the path is left holding an empty directory that is not a copy of dirA
(a copy would contain the entry b that dirA held). -/
theorem clone_dir_onto_contained_file_cex :
    cloneF 20 false "s" fsC7 none ["a"] ["a", "b"] false (some true) =
      .error (.permissionDenied, Node.dir [("a", .dir [("b", .dir [])])], none) ∧
    kindAt fsC7 ["a", "b"] = some (some "C") ∧
    kindAt fsC7 ["a", "b"] ≠ kindAt (Node.dir [("a", .dir [("b", .dir [])])]) ["a", "b"] ∧
    lookup (Node.dir [("a", .dir [("b", .dir [])])]) ["a", "b", "b"] = none :=
  ⟨rfl, rfl, by decide, rfl⟩

/-- C10: calling failed() in a thread whose identifier has no entry in
_thread_failed raises KeyError rather than returning an empty list, because
the dict subscript has no default. -/
theorem failed_unpublished_raises_keyerror
    (s : Store) (t : Nat) (h : storeGet s t = none) :
    failedF s t none = .error .keyError := by
  simp [failedF, h]

/-- Witness for C10: thread 2 never published into the store storeW. -/
theorem failed_unpublished_raises_keyerror_witness :
    failedF storeW 2 none = .error .keyError :=
  failed_unpublished_raises_keyerror storeW 2 (by rfl)

/-- C9: the failure store is keyed by thread identity: publishing a list
for thread t rewrites exactly the entry of t and leaves every other
thread's entry unchanged, and failed() with no argument depends only on the
calling thread's entry. -/
theorem failed_store_thread_local
    (s : Store) (t t' : Nat) (l : FailList) (h : t' ≠ t) :
    storeGet (storeSet s t l) t' = storeGet s t' ∧
    storeGet (storeSet s t l) t = some l ∧
    (∀ s2 : Store, storeGet s2 t = storeGet s t →
      failedF s2 t none = failedF s t none) := by
  have h2 : ¬ (t = t') := fun hh => h hh.symm
  refine ⟨?_, ?_, ?_⟩
  · induction s with
    | nil => simp [storeSet, storeGet, h2]
    | cons kv rest ih =>
      obtain ⟨tk, lk⟩ := kv
      by_cases hk : tk = t
      · subst hk
        simp [storeSet, storeGet, h2]
      · simp [storeSet, storeGet, hk, ih]
  · induction s with
    | nil => simp [storeSet, storeGet]
    | cons kv rest ih =>
      obtain ⟨tk, lk⟩ := kv
      by_cases hk : tk = t
      · subst hk; simp [storeSet, storeGet]
      · simp [storeSet, storeGet, hk, ih]
  · intro s2 hs
    simp [failedF, hs]

/-- Witness for C9: publishing for thread 2 into storeW does not change
what thread 1 reads. -/
theorem failed_store_thread_local_witness :
    storeGet (storeSet storeW 2 []) 1 = storeGet storeW 1 ∧
    storeGet (storeSet storeW 2 []) 2 = some [] ∧
    (∀ s2 : Store, storeGet s2 2 = storeGet storeW 2 →
      failedF s2 2 none = failedF storeW 2 none) :=
  failed_store_thread_local storeW 2 1 [] (by decide)

theorem lookup_some_prefix_dir {fs : Node} {q : Path} {r : List String} {t : Node}
    (hr : r ≠ []) (h : lookup fs (q ++ r) = some t) :
    ∃ es, lookup fs q = some (.dir es) := by
  rw [lookup_append] at h
  cases hq : lookup fs q with
  | none => rw [hq] at h; exact Option.noConfusion h
  | some n =>
    rw [hq] at h
    simp only [Option.some_bind] at h
    cases n with
    | file c =>
      cases r with
      | nil => exact absurd rfl hr
      | cons a as =>
        rw [show lookup (Node.file c) (a :: as) = none from rfl] at h
        exact Option.noConfusion h
    | dir es => exact ⟨es, rfl⟩

theorem makedirsA_file {c : String} : ∀ (rest : List String) (built : Path) (fs : Node),
    rest ≠ [] → lookup fs (built ++ rest) = some (.file c) →
    makedirsA fs built rest = .error (.fileExists, fs) := by
  intro rest
  induction rest with
  | nil => intro built fs hne _; exact absurd rfl hne
  | cons c1 rest' ih =>
    intro built fs _ h
    cases rest' with
    | nil =>
      unfold makedirsA
      dsimp only
      rw [h]
      rfl
    | cons c2 rest'' =>
      have hassoc : (built ++ [c1]) ++ (c2 :: rest'') = built ++ (c1 :: c2 :: rest'') := by
        simp
      obtain ⟨es, hes⟩ := lookup_some_prefix_dir (q := built ++ [c1])
        (r := c2 :: rest'') (by simp) (by rw [hassoc]; exact h)
      unfold makedirsA
      dsimp only
      rw [hes]
      exact ih (built ++ [c1]) fs (by simp) (by rw [hassoc]; exact h)

theorem makedirsA_last : ∀ (rest : List String) (built : Path) (fs : Node),
    rest ≠ [] → lookup fs (built ++ rest) = none →
    (∃ es, lookup fs (parentP (built ++ rest)) = some (.dir es)) →
    makedirsA fs built rest = .ok (setNode fs (built ++ rest) (.dir [])) := by
  intro rest
  induction rest with
  | nil => intro built fs hne _ _; exact absurd rfl hne
  | cons c1 rest' ih =>
    intro built fs _ hnone hpar
    cases rest' with
    | nil =>
      obtain ⟨es, hes⟩ := hpar
      have hpp : parentP (built ++ [c1]) = built := by
        unfold parentP
        rw [dropLast_append_left (by simp : ([c1] : Path) ≠ []) built]
        simp
      rw [hpp] at hes
      unfold makedirsA
      dsimp only
      rw [hnone]
      unfold mkdir
      rw [hnone, hpp, hes]
      rfl
    | cons c2 rest'' =>
      have hassoc : (built ++ [c1]) ++ (c2 :: rest'') = built ++ (c1 :: c2 :: rest'') := by
        simp
      obtain ⟨es, hes⟩ := hpar
      have hq : ∃ es2, lookup fs (built ++ [c1]) = some (.dir es2) := by
        have hpp : parentP (built ++ (c1 :: c2 :: rest'')) =
            (built ++ [c1]) ++ (c2 :: rest'').dropLast := by
          unfold parentP
          rw [dropLast_append_left (by simp : (c1 :: c2 :: rest'' : Path) ≠ []) built]
          rw [show (c1 :: c2 :: rest'' : Path).dropLast = c1 :: (c2 :: rest'').dropLast from rfl]
          simp
        have hes2 := hes
        rw [hpp] at hes2
        cases hdrop : (c2 :: rest'' : Path).dropLast with
        | nil =>
          rw [hdrop] at hes2
          simp only [List.append_nil] at hes2
          exact ⟨es, hes2⟩
        | cons a as =>
          rw [hdrop] at hes2
          exact lookup_some_prefix_dir (by simp) hes2
      obtain ⟨es2, hes2⟩ := hq
      unfold makedirsA
      dsimp only
      rw [hes2]
      have hres := ih (built ++ [c1]) fs (by simp)
        (by rw [hassoc]; exact hnone) (by rw [hassoc]; exact ⟨es, hes⟩)
      rw [hres, hassoc]

theorem findExisting_self {fs : Node} {p : Path} (h : (lookup fs p).isSome = true) :
    findExisting fs p = p := by
  cases p with
  | nil => rfl
  | cons a as =>
    show findExistingA fs (as.length + 1) (a :: as) = a :: as
    unfold findExistingA
    simp [h]

theorem isPre_parent_false {p : Path} (hp : p ≠ []) : isPre p (parentP p) = false := by
  cases hval : isPre p (parentP p) with
  | false => rfl
  | true =>
    exfalso
    have hlen := isPre_length hval
    unfold parentP at hlen
    rw [List.length_dropLast] at hlen
    have hpos : 0 < p.length := List.length_pos.mpr hp
    omega

theorem parent_dir_after_remove {fs : Node} {p : Path} {t : Node}
    (hp : p ≠ []) (h : lookup fs p = some t) :
    ∃ es, lookup (removeNode fs p) (parentP p) = some (.dir es) := by
  have h1 : isdir fs (parentP p) = true := lookup_some_parent_dir hp h
  have hk : kindAt (removeNode fs p) (parentP p) = kindAt fs (parentP p) :=
    kindAt_removeNode_above (parentP p) p fs (isPre_dropLast p) (isPre_parent_false hp)
  have h2 : isdir (removeNode fs p) (parentP p) = true := by
    rw [isdir_eq_of_kindAt hk]
    exact h1
  exact isdir_iff.mp h2

theorem folderF_file_noforce {fs : Node} {p : Path} {c : String} (dflt : Bool)
    (hp : lookup fs p = some (.file c)) (hne : p ≠ []) :
    folderF fs p (some false) dflt = .error (.fileExists, fs) := by
  have hnd : isdir fs p = false := by unfold isdir; rw [hp]
  have hmk : makedirs fs p = .error (.fileExists, fs) := by
    unfold makedirs
    exact makedirsA_file p [] fs hne (by simpa using hp)
  unfold folderF
  rw [hnd]
  dsimp only
  simp only [Option.getD_some, Bool.false_eq_true, if_false]
  rw [hmk]

theorem folderF_file_force {fs : Node} {p : Path} {c : String} (dflt : Bool)
    (hwf : wfb fs = true) (hp : lookup fs p = some (.file c)) (hne : p ≠ []) :
    folderF fs p (some true) dflt =
      .ok (setNode (removeNode fs p) p (.dir []), true) := by
  have hnd : isdir fs p = false := by unfold isdir; rw [hp]
  have hmk : makedirs fs p = .error (.fileExists, fs) := by
    unfold makedirs
    exact makedirsA_file p [] fs hne (by simpa using hp)
  have hfe : findExisting fs p = p := findExisting_self (by rw [hp]; rfl)
  have hrm : lookup (removeNode fs p) p = none := removeNode_lookup_self p fs hwf hne
  have hpar : ∃ es, lookup (removeNode fs p) (parentP p) = some (.dir es) :=
    parent_dir_after_remove hne hp
  have hmk2 : makedirs (removeNode fs p) p = .ok (setNode (removeNode fs p) p (.dir [])) := by
    unfold makedirs
    exact makedirsA_last p [] (removeNode fs p) hne (by simpa using hrm) (by simpa using hpar)
  unfold folderF
  rw [hnd]
  dsimp only
  simp only [Option.getD_some, reduceIte]
  rw [hmk]
  dsimp only
  rw [hfe, hp]
  dsimp only
  rw [hmk2]
  rfl

theorem costsA_single_nil (A : Node) : costsA A [([] : Path)] = dirCount A := by
  simp [costsA, lookup]

/-- C7 as amended: for every directory dirA and existing file fileB that
does not lie inside dirA (the counterexample shows the contained case
fails), clone(dirA, fileB) with force=false raises FileExistsError and
returns the tree unchanged, fileB included; with force=true the call
succeeds with the path fileB, fileB now holds a directory that agrees with
dirA in kind and content at every relative path (a copy of dirA), and a
fresh empty failed list is published.  The fuel bound asks for one walk
step per directory of dirA. -/
theorem clone_dir_over_file_amended (fuel : Nat) (dflt : Bool) (stage : String)
    (fs A : Node) (slot : Option FailList) (src dst : Path)
    (cs : List (String × Node)) (c : String)
    (hwf : wfb fs = true)
    (hsrc : lookup fs src = some A) (hA : A = .dir cs)
    (hdst : lookup fs dst = some (.file c))
    (hout : isPre src dst = false)
    (hfuel : dirCount A ≤ fuel) :
    cloneF (fuel + 1) dflt stage fs slot src dst false (some false) =
      .error (.fileExists, fs, slot) ∧
    ∃ fs2, cloneF (fuel + 1) dflt stage fs slot src dst false (some true) =
        .ok (dst, fs2, some []) ∧
      kindAt fs2 dst = some none ∧
      (∀ r : Path, kindAt fs2 (dst ++ r) = kindAt A r) := by
  have hdne : dst ≠ [] := by
    intro hh
    rw [hh] at hdst
    rw [show lookup fs [] = some fs from by cases fs <;> rfl] at hdst
    have hfs : fs = Node.file c := Option.some.inj hdst
    rw [hfs] at hsrc
    cases src with
    | nil =>
      have hAc : Node.file c = A := Option.some.inj hsrc
      rw [hA] at hAc
      exact Node.noConfusion hAc
    | cons a as =>
      rw [show lookup (Node.file c) (a :: as) = none from rfl] at hsrc
      exact Option.noConfusion hsrc
  have h2 : isPre dst src = false := by
    cases hval : isPre dst src with
    | false => rfl
    | true =>
      exfalso
      obtain ⟨r, hr⟩ := (isPre_iff dst src).mp hval
      cases r with
      | nil =>
        rw [List.append_nil] at hr
        rw [hr, hdst] at hsrc
        have hAc : Node.file c = A := Option.some.inj hsrc
        rw [hA] at hAc
        exact Node.noConfusion hAc
      | cons a as =>
        rw [hr, lookup_file_append hdst (by simp)] at hsrc
        exact Option.noConfusion hsrc
  have hsne : src ≠ dst := by
    intro hh
    rw [hh, isPre_refl] at hout
    exact Bool.noConfusion hout
  have hwfA : wfb A = true := wfb_lookup src fs hwf hsrc
  have hex : existsF fs src = true := by unfold existsF; rw [hsrc]; rfl
  have hisd : isdir fs src = true := by unfold isdir; rw [hsrc, hA]
  constructor
  · -- force = false: the folder call fails on the blocking file and the
    -- error propagates with the tree unchanged
    unfold cloneF
    rw [hex, hisd]
    simp only [not_true, Bool.false_eq_true, if_false, reduceIte]
    rw [folderF_file_noforce dflt hdst hdne]
  · -- force = true
    have hBsrc : lookup (setNode (removeNode fs dst) dst (.dir [])) src = some A := by
      rw [setNode_lookup_frame (.dir []) src (removeNode fs dst) h2 hout]
      rw [removeNode_lookup_frame src fs h2 hout]
      exact hsrc
    have hpar : ∃ es, lookup (removeNode fs dst) (parentP dst) = some (.dir es) :=
      parent_dir_after_remove hdne hdst
    have hBdst : lookup (setNode (removeNode fs dst) dst (.dir [])) dst =
        some (.dir []) :=
      setNode_lookup_self _ dst (removeNode fs dst) hpar hdne
    obtain ⟨fs2, hwalk, hAg, _, _⟩ := walkClone
      (fun fs1 slot1 s d f1 => mergeF fuel dflt stage fs1 slot1 s d true f1)
      true (some true) src dst A hwfA hout h2 fuel [[]]
      (setNode (removeNode fs dst) dst (.dir [])) slot []
      hBsrc
      (by
        intro q hq
        rw [List.mem_singleton] at hq
        subst hq
        exact ⟨cs, by rw [show lookup A [] = some A from by cases A <;> rfl, hA]⟩)
      (by
        intro q hq
        rw [List.mem_singleton] at hq
        subst hq
        left
        simpa using hBdst)
      (by simp)
      (by rw [costsA_single_nil]; exact hfuel)
    simp only [List.map_cons, List.map_nil, List.append_nil] at hwalk
    have hrel1 : rel src dst = none := by unfold rel; rw [h2]; rfl
    have hrel2 : rel dst src = none := by unfold rel; rw [hout]; rfl
    have hmerge : mergeF (fuel + 1) dflt stage
        (setNode (removeNode fs dst) dst (.dir [])) slot src dst false (some true) =
        .ok (some true, fs2, some []) := by
      rw [mergeF_succ]
      unfold mergeW
      rw [show isdir (setNode (removeNode fs dst) dst (.dir [])) src = true from by
        unfold isdir; rw [hBsrc, hA]]
      rw [show isdir (setNode (removeNode fs dst) dst (.dir [])) dst = true from by
        unfold isdir; rw [hBdst]]
      simp only [not_true, Bool.false_eq_true, if_false, reduceIte]
      rw [if_neg hsne]
      rw [hrel1, hrel2]
      simp only [Option.isSome_none, Bool.false_eq_true, if_false, Option.getD_some]
      rw [hwalk]
      rfl
    refine ⟨fs2, ?_, ?_, ?_⟩
    · unfold cloneF
      rw [hex, hisd]
      simp only [not_true, Bool.false_eq_true, if_false, reduceIte]
      rw [folderF_file_force dflt hwf hdst hdne]
      dsimp only
      rw [hmerge]
    · have hAg0 := hAg [] (by simp) []
      simp only [List.append_nil] at hAg0
      rw [hAg0]
      unfold kindAt
      rw [show lookup A [] = some A from by cases A <;> rfl, hA]
      rfl
    · intro r
      have hAgr := hAg [] (by simp) r
      simpa using hAgr

/-- Witness for the amended C7: cloning the directory a of fsW7 over the
unrelated file f fails without force and succeeds with force. -/
theorem clone_dir_over_file_amended_witness :
    cloneF 3 false "s" fsW7 none ["a"] ["f"] false (some false) =
      .error (.fileExists, fsW7, none) ∧
    ∃ fs2, cloneF 3 false "s" fsW7 none ["a"] ["f"] false (some true) =
        .ok (["f"], fs2, some []) ∧
      kindAt fs2 ["f"] = some none ∧
      (∀ r : Path, kindAt fs2 (["f"] ++ r) =
        kindAt (Node.dir [("x", .file "X"), ("s", .dir [("y", .file "Y")])]) r) :=
  clone_dir_over_file_amended 2 false "s" fsW7
    (Node.dir [("x", .file "X"), ("s", .dir [("y", .file "Y")])]) none ["a"] ["f"]
    [("x", .file "X"), ("s", .dir [("y", .file "Y")])] "F"
    rfl rfl rfl rfl rfl (by decide)

end QFile
